import Mathlib

/-!
Shallow embedding of the differential update engine of the umu launcher
(src/umu/umu_bspatch.py and src/umu/umu_runtime.py), together with proofs
that settle the specification claims against it.

Modelling conventions:
- bytes are `List Nat`; paths are `List String` of components (flat keys of
  an association-list file system); Python floats (mtimes) are `ℚ`.
- the trusted external primitives (bz2 decompression, crc32, crc32 over an
  mmap, bspatch) are fields of a context record `Ctx`, universally
  quantified in the theorems, since the spec declares them out of scope.
- a unit of work is modelled as a pure state transition on the file system
  returning the exception it raises, if any.  `_write_proton_file` is in
  addition modelled as the list of primitive file-system operations it
  performs, in program order, so that statements about intermediate states
  (atomicity of the final rename) can be made.
- `NamedTemporaryFile` cleanup is modelled with the current CPython
  semantics (3.12+): a temp file already renamed away is silently ignored
  by the context-manager cleanup.
-/

namespace Umu

abbrev Bytes := List Nat

abbrev FPath := List String

/-- Exceptions a unit of work can raise, abstracted from the Python
exception classes that appear in the source. -/
inductive Exc
  | valueError (msg : String)
  | osError
  | interrupt
  | fileNotFound
  | fileExists
  | notADirectory
  | notImplemented
  | httpError (status : Nat)
  | structError
deriving DecidableEq, Repr

/-- A node of the modelled file system: a regular file with content,
permission bits and mtime; a symbolic link with raw target bytes and mtime;
or a directory with permission bits and mtime. -/
inductive FsNode
  | file (content : Bytes) (perm : Nat) (mtime : ℚ)
  | symlink (target : Bytes) (mtime : ℚ)
  | dir (perm : Nat) (mtime : ℚ)
deriving DecidableEq, Repr

/-- The file system: an association list from paths to nodes.  Paths are
flat keys; directory containment is by list-prefix of components. -/
abbrev FS := List (FPath × FsNode)

def fsGet (fs : FS) (p : FPath) : Option FsNode :=
  match fs with
  | [] => none
  | (q, n) :: rest => if q = p then some n else fsGet rest p

def fsSet (fs : FS) (p : FPath) (n : FsNode) : FS :=
  match fs with
  | [] => [(p, n)]
  | (q, m) :: rest => if q = p then (q, n) :: rest else (q, m) :: fsSet rest p n

def fsErase (fs : FS) (p : FPath) : FS :=
  match fs with
  | [] => []
  | (q, m) :: rest => if q = p then fsErase rest p else (q, m) :: fsErase rest p

/-- Recursive removal of a directory tree (shutil.rmtree): removes the path
and every path that has it as a prefix of components. -/
def fsEraseTree (fs : FS) (p : FPath) : FS :=
  fs.filter (fun qn => ¬ (p.isPrefixOf qn.1))

/-- Trusted external primitives assumed by the engine (umu_delta Rust
library): bz2 decompression (`none` models a raised decompression error),
the two checksum entry points, and in-place binary patching.  `bspatch`
returns the content left in the file together with the exception it raised,
if any, since an interrupted patch leaves partial content in place. -/
structure Ctx where
  bz2Decompress : Bytes → Nat → Option Bytes
  crc32 : Bytes → Nat
  crc32Mmap : Bytes → Nat
  bspatch : Bytes → Bytes → Option Exc × Bytes

/-- Source: `MMAP_MIN = 16 * 1024` in umu_bspatch.py. -/
def MMAP_MIN : Nat := 16 * 1024

/-- The size gate appearing three times in the source as
`if stats.st_size > MMAP_MIN`. -/
def usesMmap (size : Nat) : Bool := MMAP_MIN < size

/-- The checksum step shared (verbatim, thrice) by `_check_proton_binaries`,
`_patch_proton_file` and `_write_proton_file`: memory-mapped crc32 when the
file size is strictly above `MMAP_MIN`, direct crc32 otherwise. -/
def cksumOf (ctx : Ctx) (content : Bytes) : Nat :=
  if usesMmap content.length then ctx.crc32Mmap content else ctx.crc32 content

/-- File types supported under mtree, from the `FileType` StrEnum. -/
inductive FileType
  | file
  | block
  | char
  | dirT
  | fifo
  | link
  | socket
deriving DecidableEq, Repr

/-- An add/update/delete entry of an update package (`Entry` TypedDict). -/
structure Entry where
  data : Bytes
  mode : Nat
  name : String
  type : FileType
  cksum : Nat
  time : ℚ
  size : Nat
deriving DecidableEq, Repr

/-- A manifest entry (`ManifestEntry` TypedDict). -/
structure ManifestEntry where
  mode : Nat
  name : String
  cksum : Nat
  size : Nat
  time : ℚ
deriving DecidableEq, Repr

/-- Path.joinpath with a relative name, modelled as appending one component
(the relative name is treated as an opaque component). -/
def pathJoin (root : FPath) (name : String) : FPath := root ++ [name]

def S_IFREG : Nat := 0o100000

def S_IFDIR : Nat := 0o040000

def S_IFLNK : Nat := 0o120000

/-- The st_mode field returned by fstat for an open regular file: the
regular-file format bits combined with the permission bits. -/
def stModeReg (perm : Nat) : Nat := S_IFREG ||| perm

/-- Model of `_check_proton_binaries`: open the file (FileNotFoundError is
caught and reported as no match), compare size, mode, mtime in that order,
then the size-gated checksum; any mismatch is `ok none`.  Opening a
directory raises IsADirectoryError, which the handler does not catch;
symbolic-link resolution is not modelled (manifest entries name regular
files) and is likewise mapped to an uncaught error. -/
def checkProtonBinaries (ctx : Ctx) (fs : FS) (proton : FPath)
    (item : ManifestEntry) : Except Exc (Option ManifestEntry) :=
  match fsGet fs (pathJoin proton item.name) with
  | none => .ok none
  | some (.dir _ _) => .error .osError
  | some (.symlink _ _) => .error .osError
  | some (.file content perm t) =>
    if item.size ≠ content.length then .ok none
    else if item.mode ≠ stModeReg perm then .ok none
    else if item.time ≠ t then .ok none
    else if item.cksum ≠ cksumOf ctx content then .ok none
    else .ok (some item)

/-- Primitive file-system operations performed by `_write_proton_file`, in
program order.  `cksumEvent` records which checksum path was taken and the
fstat size it was gated on; it has no file-system effect.  `cleanupTemp` is
the NamedTemporaryFile context-manager exit, which deletes the temp file if
it still exists (a name already renamed away is ignored, per current
CPython). -/
inductive WOp
  | mkTemp (tmp : FPath)
  | writeTemp (tmp : FPath) (content : Bytes)
  | cksumEvent (mmapUsed : Bool) (size : Nat)
  | chmod (p : FPath) (mode : Nat)
  | utime (p : FPath) (t : ℚ)
  | rename (src dst : FPath)
  | cleanupTemp (tmp : FPath)
deriving DecidableEq, Repr

def applyWOp (fs : FS) : WOp → FS
  | .mkTemp tmp => fsSet fs tmp (.file [] 0o600 0)
  | .writeTemp tmp content =>
    match fsGet fs tmp with
    | some (.file _ perm t) => fsSet fs tmp (.file content perm t)
    | _ => fs
  | .cksumEvent _ _ => fs
  | .chmod p mode =>
    match fsGet fs p with
    | some (.file c _ t) => fsSet fs p (.file c mode t)
    | some (.dir _ t) => fsSet fs p (.dir mode t)
    | _ => fs
  | .utime p t =>
    match fsGet fs p with
    | some (.file c m _) => fsSet fs p (.file c m t)
    | some (.dir m _) => fsSet fs p (.dir m t)
    | some (.symlink tgt _) => fsSet fs p (.symlink tgt t)
    | _ => fs
  | .rename src dst =>
    match fsGet fs src with
    | some n => fsSet (fsErase fs src) dst n
    | none => fs
  | .cleanupTemp tmp => fsErase fs tmp

def runWOps (fs : FS) (ops : List WOp) : FS := ops.foldl applyWOp fs

/-- The paths a primitive operation can affect, used to state that a unit
of work leaves every other path alone. -/
def touches : WOp → List FPath
  | .mkTemp t => [t]
  | .writeTemp t _ => [t]
  | .cksumEvent _ _ => []
  | .chmod p _ => [p]
  | .utime p _ => [p]
  | .rename s d => [s, d]
  | .cleanupTemp t => [t]

/-- Model of `_write_proton_file` as the list of primitive operations it
performs together with the exception it raises, if any: create the temp
file in the cache directory, decompress into it (a decompression error
propagates, the temp file is removed at context exit), fstat, size-gated
checksum, and on digest match fchmod, utime and the final rename into
place; on mismatch a ValueError is raised and the temp file is removed. -/
def writeProtonFileOps (ctx : Ctx) (path tmp : FPath) (data : Bytes)
    (digest mode : Nat) (time : ℚ) (size : Nat) : List WOp × Option Exc :=
  match ctx.bz2Decompress data size with
  | none => ([.mkTemp tmp, .cleanupTemp tmp], some .osError)
  | some content =>
    let st := content.length
    if cksumOf ctx content ≠ digest then
      ([.mkTemp tmp, .writeTemp tmp content, .cksumEvent (usesMmap st) st,
        .cleanupTemp tmp],
       some (.valueError "Digest mismatch when creating file"))
    else
      ([.mkTemp tmp, .writeTemp tmp content, .cksumEvent (usesMmap st) st,
        .chmod tmp mode, .utime tmp time, .rename tmp path,
        .cleanupTemp tmp],
       none)

/-- The file-system effect of `_write_proton_file`. -/
def writeProtonFile (ctx : Ctx) (fs : FS) (path tmp : FPath) (data : Bytes)
    (digest mode : Nat) (time : ℚ) (size : Nat) : FS × Option Exc :=
  let r := writeProtonFileOps ctx path tmp data digest mode time size
  (runWOps fs r.1, r.2)

/-- Warning message logged by the `_patch_proton_file` exception handler
before re-raising (log.warning of the 0o700 mode bits). -/
def warn700 : String := "File has mode bits 0o700"

/-- Model of `_patch_proton_file`: chmod the target to 0o700 (so that it is
writable and mappable), apply the binary patch in place, fstat, size-gated
checksum; on digest mismatch raise ValueError; on success fchmod to the
final mode and utime.  The handler catches ValueError, KeyboardInterrupt
and OSError, logs the 0o700 warning, and re-raises.  chmod with
follow_symlinks=False on a symbolic link is unsupported on Linux and
raises an error the handler does not catch.  Returns the final file
system, the raised exception if any, and the warnings logged. -/
def patchProtonFile (ctx : Ctx) (fs : FS) (path : FPath) (bdiff : Bytes)
    (digest mode : Nat) (time : ℚ) : FS × Option Exc × List String :=
  match fsGet fs path with
  | none => (fs, some .osError, [warn700])
  | some (.symlink _ _) => (fs, some .notImplemented, [])
  | some (.dir _ t) => (fsSet fs path (.dir 0o700 t), some .osError, [warn700])
  | some (.file content _ t) =>
    let r := ctx.bspatch content bdiff
    let fs1 := fsSet fs path (.file r.2 0o700 t)
    match r.1 with
    | some e => (fs1, some e, [warn700])
    | none =>
      if cksumOf ctx r.2 ≠ digest then
        (fs1, some (.valueError "Digest mismatch for binary patched result"),
         [warn700])
      else
        (fsSet fs1 path (.file r.2 mode time), none, [])

/-- A unit of work submitted to the thread pool: a file addition, a file
patch, a manifest check, or a recursive directory removal. -/
inductive Work
  | writeF (path : FPath) (data : Bytes) (cksum mode : Nat) (time : ℚ)
      (size : Nat)
  | patchF (path : FPath) (bdiff : Bytes) (cksum mode : Nat) (time : ℚ)
  | checkF (proton : FPath) (item : ManifestEntry)
  | rmtreeW (path : FPath)
deriving DecidableEq, Repr

/-- Execute one unit of work on the file system.  `tmp` is the fresh name
the NamedTemporaryFile receives at execution time (used only by file
additions).  rmtree raises FileNotFoundError on a missing directory and
NotADirectoryError on a non-directory. -/
def runWork (ctx : Ctx) (fs : FS) (w : Work) (tmp : FPath) : FS × Option Exc :=
  match w with
  | .writeF path data ck mode time size =>
    writeProtonFile ctx fs path tmp data ck mode time size
  | .patchF path bdiff ck mode time =>
    let r := patchProtonFile ctx fs path bdiff ck mode time
    (r.1, r.2.1)
  | .checkF proton item =>
    match checkProtonBinaries ctx fs proton item with
    | .ok _ => (fs, none)
    | .error e => (fs, some e)
  | .rmtreeW p =>
    match fsGet fs p with
    | some (.dir _ _) => (fsEraseTree fs p, none)
    | some _ => (fs, some .notADirectory)
    | none => (fs, some .fileNotFound)

/-- Await a list of collected futures in order (`for f in result():
f.result()`): every unit of work runs to completion on the pool regardless
of earlier failures, and the first exception wins.  The i-th file addition
receives the i-th fresh temp name. -/
def awaitAll (ctx : Ctx) (fs : FS) (ws : List Work) (tmps : List FPath) :
    FS × Option Exc :=
  match ws with
  | [] => (fs, none)
  | w :: rest =>
    let r1 := runWork ctx fs w (tmps.headD [])
    let r2 := awaitAll ctx r1.1 rest tmps.tail
    (r2.1, match r1.2 with | some e => some e | none => r2.2)

/-- State of a `CustomPatcher`: the live tree, every unit of work submitted
to the pool, and the futures collected in `self._futures` (what `result()`
returns). -/
structure PatcherSt where
  fs : FS
  submitted : List Work
  futures : List Work
deriving DecidableEq, Repr

/-- Model of `add_binaries`: regular files are submitted to the pool and
their futures collected; symbolic links are created synchronously on the
calling thread (symlink_to raises FileExistsError when the path exists,
aborting the loop) followed by a no-follow utime; directories are created
with exist_ok (an existing directory keeps its mode, an existing non-dir
raises) followed by utime; other types are logged and skipped.  Flat-path
model: parent creation by mkdir(parents=True) touches no other modelled
key. -/
def addBinaries (proton : FPath) (items : List Entry) (st : PatcherSt) :
    PatcherSt × Option Exc :=
  match items with
  | [] => (st, none)
  | item :: rest =>
    let buildFile := pathJoin proton item.name
    if item.type = .file then
      let w := Work.writeF buildFile item.data item.cksum item.mode item.time
        item.size
      addBinaries proton rest
        { st with submitted := st.submitted ++ [w],
                  futures := st.futures ++ [w] }
    else if item.type = .link then
      match fsGet st.fs buildFile with
      | some _ => (st, some .fileExists)
      | none =>
        addBinaries proton rest
          { st with fs := fsSet st.fs buildFile (.symlink item.data item.time) }
    else if item.type = .dirT then
      match fsGet st.fs buildFile with
      | none =>
        addBinaries proton rest
          { st with fs := fsSet st.fs buildFile (.dir item.mode item.time) }
      | some (.dir perm _) =>
        addBinaries proton rest
          { st with fs := fsSet st.fs buildFile (.dir perm item.time) }
      | some _ => (st, some .fileExists)
    else
      addBinaries proton rest st

/-- Model of `update_binaries`: regular files are submitted to the pool as
binary patches and their futures collected; directories get a synchronous
no-follow chmod and utime (chmod also succeeds on a regular file at the
path; a missing path raises; a symlink raises the unsupported-no-follow
error); symbolic links are unlinked (missing raises, a directory raises)
and recreated with utime; other types are logged and skipped. -/
def updateBinaries (proton : FPath) (items : List Entry) (st : PatcherSt) :
    PatcherSt × Option Exc :=
  match items with
  | [] => (st, none)
  | item :: rest =>
    let buildFile := pathJoin proton item.name
    if item.type = .file then
      let w := Work.patchF buildFile item.data item.cksum item.mode item.time
      updateBinaries proton rest
        { st with submitted := st.submitted ++ [w],
                  futures := st.futures ++ [w] }
    else if item.type = .dirT then
      match fsGet st.fs buildFile with
      | none => (st, some .osError)
      | some (.symlink _ _) => (st, some .notImplemented)
      | some (.file c _ _) =>
        updateBinaries proton rest
          { st with fs := fsSet st.fs buildFile (.file c item.mode item.time) }
      | some (.dir _ _) =>
        updateBinaries proton rest
          { st with fs := fsSet st.fs buildFile (.dir item.mode item.time) }
    else if item.type = .link then
      match fsGet st.fs buildFile with
      | none => (st, some .fileNotFound)
      | some (.dir _ _) => (st, some .osError)
      | some _ =>
        let fs1 := fsSet (fsErase st.fs buildFile) buildFile
          (.symlink item.data item.time)
        updateBinaries proton rest { st with fs := fs1 }
    else
      updateBinaries proton rest st

/-- Model of `delete_binaries`: regular files and symbolic links are
unlinked synchronously with missing_ok (a directory at the path still
raises); directories are submitted to the pool as rmtree work whose future
is NOT collected into `self._futures`; other types are logged and
skipped. -/
def deleteBinaries (proton : FPath) (items : List Entry) (st : PatcherSt) :
    PatcherSt × Option Exc :=
  match items with
  | [] => (st, none)
  | item :: rest =>
    let buildFile := pathJoin proton item.name
    if item.type = .file ∨ item.type = .link then
      match fsGet st.fs buildFile with
      | some (.dir _ _) => (st, some .osError)
      | _ =>
        deleteBinaries proton rest { st with fs := fsErase st.fs buildFile }
    else if item.type = .dirT then
      deleteBinaries proton rest
        { st with submitted := st.submitted ++ [.rmtreeW buildFile] }
    else
      deleteBinaries proton rest st

/-- Model of `verify_integrity`: every manifest entry is submitted to the
pool and its future collected. -/
def verifyIntegrity (proton : FPath) (manifest : List ManifestEntry)
    (st : PatcherSt) : PatcherSt :=
  match manifest with
  | [] => st
  | item :: rest =>
    verifyIntegrity proton rest
      { st with submitted := st.submitted ++ [.checkF proton item],
                futures := st.futures ++ [.checkF proton item] }

/-! Digest engine (umu_runtime.py).  `_compute_digest` hashes, per file, the
record `pack("fiiiif", st_mtime, st_mode, st_size, st_uid, st_gid,
st_ctime)`; `get_runtime_digest` folds the per-file hashes into one sha256
in scan order.  We model the digest as the exact stream of packed records
fed to the hash in fold order: two digests are equal iff the streams are
(sha256 being collision-free on the modelled records), and a packing error
(struct.error / OverflowError) propagates through the awaited future.  The
`f` format converts a Python float to IEEE binary32 by round-to-nearest,
ties-to-even; we model binary32 values exactly by a canonical
significand/scale pair. -/

/-- Stat result fields used by `_compute_digest`. -/
structure StatRec where
  mtime : ℚ
  mode : ℤ
  size : ℤ
  uid : ℤ
  gid : ℤ
  ctime : ℚ
deriving DecidableEq, Repr

/-- Fuel-driven base-2 logarithm (structural recursion so that concrete
instances reduce in the kernel). -/
def log2fuel : Nat → Nat → Nat
  | 0, _ => 0
  | fuel + 1, n => if 2 ≤ n then log2fuel fuel (n / 2) + 1 else 0

/-- Round n/d (with d > 0) to the nearest integer, ties to even. -/
def rneFrac (n d : ℤ) : ℤ :=
  let q := Int.fdiv n d
  let r := n - q * d
  if 2 * r < d then q
  else if d < 2 * r then q + 1
  else if q % 2 = 0 then q else q + 1

/-- Exponent e with 2 ^ e ≤ a < 2 ^ (e + 1), for a positive rational a of
the magnitudes a stat time can take. -/
def f32exp (a : ℚ) : ℤ :=
  (log2fuel 600 ((a.num * 2 ^ 200).fdiv (a.den : ℤ)).toNat : ℤ) - 200

/-- Round a / 2 ^ s to the nearest integer, ties to even. -/
def rneScaled (a : ℚ) (s : ℤ) : ℤ :=
  rneFrac (a.num * 2 ^ (-s).toNat) ((a.den : ℤ) * 2 ^ s.toNat)

/-- An IEEE binary32 value in canonical significand × 2 ^ scale form (the
value the `f` pack format stores). -/
structure F32 where
  m : ℤ
  s : ℤ
  neg : Bool
deriving DecidableEq, Repr

/-- Canonical form: zero is ⟨0, 0, false⟩; a significand that rounded up to
2 ^ 24 renormalizes. -/
def canonF32 (m s : ℤ) (neg : Bool) : F32 :=
  if m = 0 then ⟨0, 0, false⟩
  else if m = 2 ^ 24 then ⟨2 ^ 23, s + 1, neg⟩
  else ⟨m, s, neg⟩

/-- Conversion of a Python float to binary32 as performed by pack("f", x):
round to nearest, ties to even, 24-bit significand, subnormals below
2 ^ (-126), and `none` (OverflowError) when the rounded magnitude reaches
2 ^ 128. -/
def roundF32 (q : ℚ) : Option F32 :=
  if q = 0 then some ⟨0, 0, false⟩
  else
    let neg := q < 0
    let a := if neg then -q else q
    let e := f32exp a
    let s := max (e - 23) (-149)
    let m := rneScaled a s
    if 0 ≤ s ∧ 2 ^ 128 ≤ m * 2 ^ s.toNat then none
    else some (canonF32 m s neg)

/-- The `i` pack format: a 32-bit signed integer; out of range raises
struct.error. -/
def packI32 (n : ℤ) : Option ℤ :=
  if -(2 ^ 31) ≤ n ∧ n < 2 ^ 31 then some n else none

/-- The values stored by pack("fiiiif", mtime, mode, size, uid, gid,
ctime); the byte string is in bijection with this tuple. -/
structure PackedRec where
  mtime32 : F32
  mode : ℤ
  size : ℤ
  uid : ℤ
  gid : ℤ
  ctime32 : F32
deriving DecidableEq, Repr

/-- Model of `_compute_digest`: pack the six stat fields; any field that
does not fit its format raises (struct.error / OverflowError), which the
caller's future re-raises. -/
def packRecord (r : StatRec) : Option PackedRec := do
  let mt ← roundF32 r.mtime
  let mo ← packI32 r.mode
  let sz ← packI32 r.size
  let u ← packI32 r.uid
  let g ← packI32 r.gid
  let ct ← roundF32 r.ctime
  pure ⟨mt, mo, sz, u, g, ct⟩

/-- A one-level child of a top-level directory, as seen by
`file.glob("*")`: its name, whether Path.is_file holds (following links),
whether it is a symlink, and its stat. -/
structure Child where
  name : String
  isFile : Bool
  isSymlink : Bool
  stat : StatRec
deriving DecidableEq, Repr

/-- A top-level entry of the runtime directory in the order the filesystem
enumerates it (`path.glob("*")` yields os.scandir order, unsorted).
`stat.mode` is the full st_mode of file.stat(). -/
structure TopEntry where
  name : String
  stat : StatRec
  children : List Child
deriving DecidableEq, Repr

def S_IFMT : Nat := 0o170000

def isDirMode (m : ℤ) : Bool := m.toNat &&& S_IFMT = S_IFDIR

def isRegMode (m : ℤ) : Bool := m.toNat &&& S_IFMT = S_IFREG

def isLnkMode (m : ℤ) : Bool := m.toNat &&& S_IFMT = S_IFLNK

/-- Names excluded from the digest (`whitelist` tuple in
get_runtime_digest, matched by str.endswith). -/
def whitelist : List String := [".lock", ".ref", "var", "umu.hashsum"]

/-- str.endswith, computed on the underlying character lists. -/
def strEndsWith (s suffix : String) : Bool :=
  suffix.data.isSuffixOf s.data

def ignoredName (name : String) : Bool :=
  whitelist.any (fun s => strEndsWith name s)

/-- The per-file stat records hashed by `get_runtime_digest`, in fold
order: top-level entries in enumeration order, skipping ignored names; a
directory contributes its regular non-symlink children (in their
enumeration order); a top-level regular file contributes itself; everything
else contributes nothing. -/
def digestRecords (entries : List TopEntry) : List StatRec :=
  (entries.filter (fun e => ¬ ignoredName e.name)).flatMap (fun e =>
    if isDirMode e.stat.mode then
      (e.children.filter (fun c => c.isFile ∧ ¬ c.isSymlink)).map Child.stat
    else if isRegMode e.stat.mode ∧ ¬ isLnkMode e.stat.mode then [e.stat]
    else [])

/-- Pack every record of the stream in order; `none` as soon as one record
fails to pack (its struct error propagates through the awaited future). -/
def packStream : List StatRec → Option (List PackedRec)
  | [] => some []
  | r :: rest => (packRecord r).bind fun p => (packStream rest).map (p :: ·)

/-- Model of `get_runtime_digest`: the stream of packed records folded into
the top-level sha256, in order; `none` when some record fails to pack.
Two trees have equal sha256 digests iff their streams are equal, sha256
collisions aside. -/
def getRuntimeDigest (entries : List TopEntry) : Option (List PackedRec) :=
  packStream (digestRecords entries)

/-! Remote fetcher (`_install_umu` download phase, umu_runtime.py). -/

/-- Parse SHA256SUMS: the first line whose suffix is the archive name
yields `line.split(" ")[0]`; when no line matches, the digest stays the
empty string. -/
def parseSums (text archive : String) : String :=
  match (text.splitOn "\n").find? (fun l => l.endsWith archive) with
  | some l => (l.splitOn " ").headD ""
  | none => ""

/-- Inputs of one run of the download phase: whether UMU_ZENITY was "1",
the zenity exit code, and the two HTTP responses (status and payload). -/
structure FetchInputs where
  zenityEnv : Bool
  zenityRet : Nat
  sumsStatus : Nat
  sumsBody : String
  arcStatus : Nat
  arcChunks : List Bytes
deriving Repr

/-- Model of the fetch-and-verify phase of `_install_umu`, up to the point
where extraction begins.  `H` is the hex sha256; updating it chunk by chunk
while writing equals hashing the concatenation of the chunks.  The result
is the verified archive content handed to extraction (`none` when the
zenity download path skipped in-process verification); a raised exception
aborts the function before any extraction or installation step. -/
def installUmuFetch (H : Bytes → String) (archive : String)
    (inp : FetchInputs) : Except Exc (Option Bytes) :=
  if ¬ inp.zenityEnv ∨ inp.zenityRet ≠ 0 then
    if inp.sumsStatus ≠ 200 then .error (.httpError inp.sumsStatus)
    else
      let digest := parseSums inp.sumsBody archive
      if inp.arcStatus ≠ 200 then .error (.httpError inp.arcStatus)
      else
        let content := inp.arcChunks.flatten
        if H content ≠ digest then
          .error (.valueError "Digest mismatched")
        else .ok (some content)
  else .ok none

/-! Claim C3: which checksum path is taken at the 16 KiB boundary.  The
source gate is `stats.st_size > MMAP_MIN` (strict), so a file of exactly
16384 bytes takes the direct path, not the memory-mapped one. -/

/-- Context whose two checksum entry points disagree everywhere, used to
observe which of the two a unit of work consults. -/
def ctxSplit : Ctx where
  bz2Decompress := fun _ _ => none
  crc32 := fun _ => 0
  crc32Mmap := fun _ => 1
  bspatch := fun c _ => (none, c)

def item16k : ManifestEntry where
  mode := stModeReg 0o644
  name := "f"
  cksum := 0
  size := 16 * 1024
  time := 0

def content16k : Bytes := List.replicate (16 * 1024) 0

def fs16k : FS := [(["proton", "f"], .file content16k 0o644 0)]

/-- Context whose primitives are simple total functions: decompression
returns the payload unchanged and both checksum entry points return the
content length.  Used for concrete counterexamples. -/
def ctxId : Ctx where
  bz2Decompress := fun data _ => some data
  crc32 := fun c => c.length
  crc32Mmap := fun c => c.length
  bspatch := fun c _ => (none, c)

/-- Manifest entry carrying exactly the fields of the four-byte add entry
used in the end-to-end scenario (mode 0o755, size 4, crc 4, time 5). -/
def itemC6 : ManifestEntry where
  mode := 0o755
  name := "x"
  cksum := 4
  size := 4
  time := 5

/-- The unit of work enqueued by `add_binaries` for a regular-file
entry. -/
def fileWork (proton : FPath) (e : Entry) : Work :=
  .writeF (pathJoin proton e.name) e.data e.cksum e.mode e.time e.size

/-- The unit of work enqueued by `update_binaries` for a regular-file
entry. -/
def patchWork (proton : FPath) (e : Entry) : Work :=
  .patchF (pathJoin proton e.name) e.data e.cksum e.mode e.time

/-- Every unit of work in the list completes without raising when run in
sequence from the given state (the property equivalent to result()
reporting no exception). -/
def allOk (ctx : Ctx) : FS → List Work → List FPath → Prop
  | _, [], _ => True
  | fs, w :: rest, tmps =>
    (runWork ctx fs w (tmps.headD [])).2 = none ∧
    allOk ctx (runWork ctx fs w (tmps.headD [])).1 rest tmps.tail

/-- A delete entry of directory type. -/
def entryDirDel : Entry where
  data := []
  mode := 0o755
  name := "d"
  type := .dirT
  cksum := 0
  time := 0
  size := 0

/-- An add entry of symbolic-link type. -/
def entryLinkAdd : Entry where
  data := [47, 116]
  mode := 0o777
  name := "l"
  type := .link
  cksum := 0
  time := 0
  size := 0

/-- A patcher whose tree is empty and which has submitted nothing yet. -/
def emptySt : PatcherSt := ⟨[], [], []⟩

/-- A top-level regular file named a, used for the enumeration-order
counterexample. -/
def topA : TopEntry := ⟨"a", ⟨1, 33188, 1, 0, 0, 0⟩, []⟩

/-- A top-level regular file named b with a different stat record. -/
def topB : TopEntry := ⟨"b", ⟨2, 33188, 2, 0, 0, 0⟩, []⟩

/-- A top-level in-scope regular file with a parameterized mtime. -/
def topFile (t : ℚ) : TopEntry := ⟨"f", ⟨t, 33188, 10, 0, 0, 0⟩, []⟩

/-- The add entry of the end-to-end scenario: four bytes, mode 0o755,
mtime 5, checksum matching the content under ctxId. -/
def entryC1 : Entry where
  data := [65, 65, 65, 65]
  mode := 0o755
  name := "x"
  type := .file
  cksum := 4
  time := 5
  size := 4

/-- Context whose binary patch primitive is interrupted, leaving the
original content in place. -/
def ctxInterrupt : Ctx where
  bz2Decompress := fun data _ => some data
  crc32 := fun c => c.length
  crc32Mmap := fun c => c.length
  bspatch := fun c _ => (some .interrupt, c)

def fsC8 : FS := [(["p", "b"], .file [1, 2, 3] 0o555 7)]

/-- Claim C3 is false as stated: a file of exactly 16384 bytes takes the
direct checksum path, not the memory-mapped one.  With the direct entry
point returning 0 and the mmap entry point returning 1, verifying a
16384-byte file against expected checksum 0 matches, and against the mmap
result 1 mismatches. -/
theorem C3_counterexample :
    usesMmap (16 * 1024) = false ∧
    checkProtonBinaries ctxSplit fs16k ["proton"] item16k =
      .ok (some item16k) ∧
    checkProtonBinaries ctxSplit fs16k ["proton"]
        { item16k with cksum := 1 } = .ok none := by
  have hlen : content16k.length = 16 * 1024 := by
    unfold content16k
    exact List.length_replicate _ _
  have h2 : fsGet fs16k ["proton", "f"] = some (.file content16k 0o644 0) := by
    simp [fs16k, fsGet]
  refine ⟨rfl, ?_, ?_⟩ <;>
  · unfold checkProtonBinaries
    rw [show pathJoin ["proton"] item16k.name = ["proton", "f"] from rfl, h2]
    simp [item16k, cksumOf, usesMmap, MMAP_MIN, ctxSplit, stModeReg, hlen]

/-- Claim C3 as amended: the memory-mapped checksum path is chosen exactly
when the file's size is strictly greater than 16 KiB; in particular a file
of exactly 16384 bytes takes the direct path.  Stated on the size gate, on
the checksum event recorded in the operation trace of a file addition, and
as non-dependence of verification on the entry point the gate rejects. -/
theorem C3_mmap_gate :
    (∀ size : Nat, usesMmap size = true ↔ 16 * 1024 < size) ∧
    usesMmap (16 * 1024) = false ∧
    (∀ ctx path tmp data dg mo t sz mm s,
      WOp.cksumEvent mm s ∈ (writeProtonFileOps ctx path tmp data dg mo t sz).1 →
      mm = usesMmap s) ∧
    (∀ dz c m m' bp fs proton item content perm mt,
      fsGet fs (pathJoin proton item.name) = some (.file content perm mt) →
      content.length ≤ 16 * 1024 →
      checkProtonBinaries ⟨dz, c, m, bp⟩ fs proton item =
        checkProtonBinaries ⟨dz, c, m', bp⟩ fs proton item) ∧
    (∀ dz c c' m bp fs proton item content perm mt,
      fsGet fs (pathJoin proton item.name) = some (.file content perm mt) →
      16 * 1024 < content.length →
      checkProtonBinaries ⟨dz, c, m, bp⟩ fs proton item =
        checkProtonBinaries ⟨dz, c', m, bp⟩ fs proton item) := by
  refine ⟨?_, rfl, ?_, ?_, ?_⟩
  · intro size
    simp [usesMmap, MMAP_MIN]
  · intro ctx path tmp data dg mo t sz mm s hmem
    unfold writeProtonFileOps at hmem
    rcases h : ctx.bz2Decompress data sz with _ | content <;> rw [h] at hmem
    · simp at hmem
    · dsimp only at hmem
      split at hmem <;> simp_all
  · intro dz c m m' bp fs proton item content perm mt hget hle
    unfold checkProtonBinaries
    rw [hget]
    have hm : usesMmap content.length = false := by
      simp [usesMmap, MMAP_MIN]
      omega
    simp [cksumOf, hm]
  · intro dz c c' m bp fs proton item content perm mt hget hlt
    unfold checkProtonBinaries
    rw [hget]
    have hm : usesMmap content.length = true := by
      simp [usesMmap, MMAP_MIN]
      omega
    simp [cksumOf, hm]

/-- Witness for C3_mmap_gate at concrete inputs. -/
theorem C3_mmap_gate_witness : usesMmap 20000 = true :=
  (C3_mmap_gate.1 20000).2 (by norm_num)

/-! Supporting lemmas about the binary32 conversion, used for claim C10. -/

theorem log2fuel_le (fuel : ℕ) : ∀ c n : ℕ, n < 2 ^ c → log2fuel fuel n ≤ c := by
  induction fuel with
  | zero => intro c n _; simp [log2fuel]
  | succ fuel ih =>
    intro c n h
    unfold log2fuel
    split
    · rename_i h2
      cases c with
      | zero => simp at h; omega
      | succ c =>
        have hp : 2 ^ (c + 1) = 2 ^ c * 2 := pow_succ 2 c
        have hdiv : n / 2 < 2 ^ c := by omega
        have := ih c (n / 2) hdiv
        omega
    · omega

/-- Round-to-nearest never overshoots by more than one half. -/
theorem rneFrac_le (n d : ℤ) (hd : 0 < d) :
    (rneFrac n d : ℚ) ≤ (n : ℚ) / (d : ℚ) + 1 / 2 := by
  have hmod := Int.fmod_add_fdiv n d
  have h0 : (0 : ℤ) ≤ n.fmod d := Int.fmod_nonneg' n hd
  have h1 : n.fmod d < d := Int.fmod_lt_of_pos n hd
  have hd' : (0 : ℚ) < (d : ℚ) := by exact_mod_cast hd
  have hr : n - n.fdiv d * d = n.fmod d := by
    rw [mul_comm] at hmod
    linarith
  have hrw : rneFrac n d = (if 2 * (n.fmod d) < d then n.fdiv d
      else if d < 2 * (n.fmod d) then n.fdiv d + 1
      else if n.fdiv d % 2 = 0 then n.fdiv d else n.fdiv d + 1) := by
    show (if 2 * (n - n.fdiv d * d) < d then n.fdiv d
      else if d < 2 * (n - n.fdiv d * d) then n.fdiv d + 1
      else if n.fdiv d % 2 = 0 then n.fdiv d else n.fdiv d + 1) = _
    rw [hr]
  have hn : (n : ℚ) = (n.fdiv d : ℚ) * d + (n.fmod d : ℚ) := by
    have hc : ((n.fmod d + d * n.fdiv d : ℤ) : ℚ) = (n : ℚ) := by
      exact_mod_cast congrArg (fun z : ℤ => (z : ℚ)) hmod
    push_cast at hc
    linarith
  have hdiv : (n : ℚ) / d = (n.fdiv d : ℚ) + (n.fmod d : ℚ) / d := by
    rw [hn, add_div, mul_div_assoc, div_self hd'.ne', mul_one]
  have hfrac : (0 : ℚ) ≤ (n.fmod d : ℚ) / d := by positivity
  rw [hrw]
  split
  · rw [hdiv]; push_cast; linarith
  · split
    · rename_i hng hgt
      have hge : (1 : ℚ) / 2 ≤ (n.fmod d : ℚ) / d := by
        rw [div_le_div_iff (by norm_num) hd']
        have : (d : ℚ) < 2 * (n.fmod d : ℚ) := by exact_mod_cast hgt
        linarith
      rw [hdiv]; push_cast; linarith
    · rename_i hng hne
      have heq : 2 * n.fmod d = d := by omega
      have hge : (1 : ℚ) / 2 ≤ (n.fmod d : ℚ) / d := by
        rw [div_le_div_iff (by norm_num) hd']
        have : (d : ℚ) = 2 * (n.fmod d : ℚ) := by exact_mod_cast heq.symm
        linarith
      split <;> · rw [hdiv]; push_cast; linarith

theorem f32exp_le (a : ℚ) (ha : a < 2 ^ 104) : f32exp a ≤ 104 := by
  unfold f32exp
  have hden : (0 : ℤ) < (a.den : ℤ) := by exact_mod_cast a.pos
  have hnum : a.num < 2 ^ 104 * a.den := by
    have hd : (0 : ℚ) < (a.den : ℚ) := by exact_mod_cast a.pos
    have h1 : (a.num : ℚ) < 2 ^ 104 * (a.den : ℚ) := by
      have h2 := (div_lt_iff hd).mp (by rw [Rat.num_div_den]; exact ha)
      linarith
    exact_mod_cast h1
  have hx : a.num * 2 ^ 200 < 2 ^ 304 * a.den := by
    have h3 : a.num * 2 ^ 200 < (2 ^ 104 * a.den) * 2 ^ 200 :=
      mul_lt_mul_of_pos_right hnum (by positivity)
    calc a.num * 2 ^ 200 < 2 ^ 104 * a.den * 2 ^ 200 := h3
      _ = 2 ^ 304 * a.den := by ring
  have hfd : (a.num * 2 ^ 200).fdiv a.den < 2 ^ 304 := by
    rw [Int.fdiv_eq_ediv _ hden.le]
    exact Int.ediv_lt_of_lt_mul hden (by linarith [hx])
  have hN : ((a.num * 2 ^ 200).fdiv a.den).toNat < 2 ^ 304 := by
    have hc : ((2 : ℤ) ^ 304) = ((2 ^ 304 : ℕ) : ℤ) := by push_cast; ring
    rw [hc] at hfd
    omega
  have hlog := log2fuel_le 600 304 _ hN
  omega

/-- The rounded significand, at nonnegative scale at most 81, stays below
the binary32 overflow threshold for inputs below 2 ^ 104. -/
theorem rneScaled_mul_lt (a : ℚ) (ha0 : 0 < a) (ha : a < 2 ^ 104) (s : ℤ)
    (hs : 0 ≤ s) (hse : s ≤ 81) :
    rneScaled a s * 2 ^ s.toNat < 2 ^ 128 := by
  have hden : (0 : ℚ) < (a.den : ℚ) := by exact_mod_cast a.pos
  have hnegs : (-s).toNat = 0 := by omega
  have hd : (0 : ℤ) < (a.den : ℤ) * 2 ^ s.toNat := by positivity
  have hle := rneFrac_le (a.num * 2 ^ (-s).toNat) ((a.den : ℤ) * 2 ^ s.toNat) hd
  have hrs : rneScaled a s = rneFrac (a.num * 2 ^ (-s).toNat)
      ((a.den : ℤ) * 2 ^ s.toNat) := rfl
  have hst : ((2 : ℚ) ^ s.toNat) ≠ 0 := by positivity
  have hval : ((a.num * 2 ^ (-s).toNat : ℤ) : ℚ) /
      (((a.den : ℤ) * 2 ^ s.toNat : ℤ) : ℚ) = a / 2 ^ s.toNat := by
    rw [hnegs]
    push_cast
    rw [mul_one]
    rw [div_eq_div_iff (by positivity) (by positivity)]
    have hnd : (a.num : ℚ) = a * a.den := (Rat.mul_den_eq_num a).symm
    rw [hnd]
    ring
  rw [hval] at hle
  rw [hrs] at *
  set m := rneFrac (a.num * 2 ^ (-s).toNat) ((a.den : ℤ) * 2 ^ s.toNat) with hm
  have hcast : ((m * 2 ^ s.toNat : ℤ) : ℚ) < ((2 ^ 128 : ℤ) : ℚ) →
      m * 2 ^ s.toNat < 2 ^ 128 := by
    intro hlt
    exact_mod_cast hlt
  apply hcast
  push_cast
  have hpow : (2 : ℚ) ^ s.toNat ≤ 2 ^ 81 := by
    apply pow_le_pow_right (by norm_num)
    omega
  have hmul : (m : ℚ) * 2 ^ s.toNat ≤ (a / 2 ^ s.toNat + 1 / 2) * 2 ^ s.toNat :=
    mul_le_mul_of_nonneg_right hle (by positivity)
  have hexp : (a / 2 ^ s.toNat + 1 / 2) * 2 ^ s.toNat = a + 2 ^ s.toNat / 2 := by
    field_simp
    ring
  rw [hexp] at hmul
  have hsum : a + (2 : ℚ) ^ s.toNat / 2 < 2 ^ 104 + 2 ^ 81 / 2 := by linarith
  have hfin : (2 : ℚ) ^ 104 + 2 ^ 81 / 2 < 2 ^ 128 := by norm_num
  linarith

/-- Any float below 2 ^ 104 in magnitude (all stat times are) converts to
binary32 without overflow. -/
theorem roundF32_isSome (q : ℚ) (h : |q| < 2 ^ 104) : (roundF32 q).isSome := by
  by_cases hq : q = 0
  · simp [roundF32, hq]
  · unfold roundF32
    rw [if_neg hq]
    have ha0 : 0 < (if q < 0 then -q else q) := by
      split <;> rename_i hlt
      · linarith
      · rcases lt_or_eq_of_le (not_lt.mp hlt) with h' | h'
        · exact h'
        · exact absurd h'.symm hq
    have haeq : (if q < 0 then -q else q) = |q| := by
      split <;> rename_i hlt
      · exact (abs_of_neg hlt).symm
      · exact (abs_of_nonneg (not_lt.mp hlt)).symm
    set a := if q < 0 then -q else q with hadef
    have ha : a < 2 ^ 104 := by rw [haeq]; exact h
    have key : ¬ (0 ≤ max (f32exp a - 23) (-149) ∧
        2 ^ 128 ≤ rneScaled a (max (f32exp a - 23) (-149)) *
          2 ^ (max (f32exp a - 23) (-149)).toNat) := by
      rintro ⟨hs0, hover⟩
      have he := f32exp_le a ha
      have hse : max (f32exp a - 23) (-149) ≤ 81 := by omega
      have := rneScaled_mul_lt a ha0 ha _ hs0 hse
      omega
    simp only [if_neg key]
    rfl

/-- Claim C10: the per-file digest record packs the size (and mode, uid,
gid) as 32-bit signed integers and the times as 32-bit floats: packing
raises for any file whose size is 2 ^ 31 or larger, and succeeds for every
file whose integer fields fit in 32-bit signed range (file times are far
below the binary32 overflow threshold 2 ^ 104 ≪ 2 ^ 128). -/
theorem C10_pack_format :
    (∀ r : StatRec, 2 ^ 31 ≤ r.size → packRecord r = none) ∧
    (∀ r : StatRec,
      -(2 ^ 31) ≤ r.mode → r.mode < 2 ^ 31 →
      -(2 ^ 31) ≤ r.size → r.size < 2 ^ 31 →
      -(2 ^ 31) ≤ r.uid → r.uid < 2 ^ 31 →
      -(2 ^ 31) ≤ r.gid → r.gid < 2 ^ 31 →
      |r.mtime| < 2 ^ 104 → |r.ctime| < 2 ^ 104 →
      (packRecord r).isSome) := by
  constructor
  · intro r hsz
    have hnone : packI32 r.size = none := by
      simp only [packI32, ite_eq_right_iff]
      intro hrange
      omega
    unfold packRecord
    cases roundF32 r.mtime <;> cases packI32 r.mode <;> simp_all
  · intro r hm1 hm2 hs1 hs2 hu1 hu2 hg1 hg2 ht1 ht2
    have hmt := roundF32_isSome r.mtime ht1
    have hct := roundF32_isSome r.ctime ht2
    rw [Option.isSome_iff_exists] at hmt hct
    obtain ⟨mt, hmt⟩ := hmt
    obtain ⟨ct, hct⟩ := hct
    unfold packRecord
    simp only [hmt, hct, packI32, Option.some_bind]
    split_ifs <;> first | rfl | omega

/-- Witness for C10_pack_format at concrete records. -/
theorem C10_pack_format_witness :
    packRecord ⟨0, 33188, 2 ^ 31, 1000, 1000, 0⟩ = none ∧
    (packRecord ⟨0, 33188, 4, 1000, 1000, 0⟩).isSome :=
  ⟨C10_pack_format.1 ⟨0, 33188, 2 ^ 31, 1000, 1000, 0⟩ (by norm_num),
   C10_pack_format.2 ⟨0, 33188, 4, 1000, 1000, 0⟩ (by norm_num) (by norm_num)
     (by norm_num) (by norm_num) (by norm_num) (by norm_num) (by norm_num)
     (by norm_num) (by norm_num) (by norm_num)⟩

/-- Claim C6 is false in its parenthetical: a file just added with the
entry's exact mode does NOT verify against a manifest entry recording that
same mode, because fstat reports the full st_mode (S_IFREG combined with
the permission bits) while fchmod set only the permission bits.  Here the
add succeeds and installs content [65,65,65,65] with mode 0o755 and mtime
5, yet verification against the manifest entry with the same fields
returns no match. -/
theorem C6_counterexample :
    (writeProtonFile ctxId [] ["p", "x"] ["cache", "t0"]
      [65, 65, 65, 65] 4 0o755 5 4).2 = none ∧
    fsGet (writeProtonFile ctxId [] ["p", "x"] ["cache", "t0"]
      [65, 65, 65, 65] 4 0o755 5 4).1 ["p", "x"] =
      some (.file [65, 65, 65, 65] 0o755 5) ∧
    checkProtonBinaries ctxId
      (writeProtonFile ctxId [] ["p", "x"] ["cache", "t0"]
        [65, 65, 65, 65] 4 0o755 5 4).1
      ["p"] itemC6 = .ok none := by
  refine ⟨?_, ?_, ?_⟩ <;> rfl

/-- Claim C6 as amended: verify returns a match iff the live path holds a
regular file whose checksum, size and mtime equal the entry's and whose
full stat mode (format bits included) equals the entry's recorded mode; a
missing file or any field mismatch yields no match without raising; an
error escapes only when a non-regular-file node occupies the path. -/
theorem C6_verify_match (ctx : Ctx) (fs : FS) (proton : FPath)
    (item : ManifestEntry) :
    (checkProtonBinaries ctx fs proton item = .ok (some item) ↔
      ∃ content perm t,
        fsGet fs (pathJoin proton item.name) = some (.file content perm t) ∧
        item.size = content.length ∧ item.mode = stModeReg perm ∧
        item.time = t ∧ item.cksum = cksumOf ctx content) ∧
    (fsGet fs (pathJoin proton item.name) = none →
      checkProtonBinaries ctx fs proton item = .ok none) ∧
    (∀ content perm t,
      fsGet fs (pathJoin proton item.name) = some (.file content perm t) →
      (item.size ≠ content.length ∨ item.mode ≠ stModeReg perm ∨
        item.time ≠ t ∨ item.cksum ≠ cksumOf ctx content) →
      checkProtonBinaries ctx fs proton item = .ok none) ∧
    (∀ e, checkProtonBinaries ctx fs proton item = .error e →
      ∃ n, fsGet fs (pathJoin proton item.name) = some n ∧
        ∀ c p t, n ≠ .file c p t) := by
  unfold checkProtonBinaries
  cases hget : fsGet fs (pathJoin proton item.name) with
  | none =>
    refine ⟨?_, fun _ => rfl, ?_, ?_⟩
    · constructor
      · intro h; cases h
      · rintro ⟨c, p, t, hc, _⟩; cases hc
    · intro c p t hc; cases hc
    · intro e he; cases he
  | some n =>
    cases n with
    | file content perm t =>
      refine ⟨?_, ?_, ?_, ?_⟩
      · constructor
        · intro h
          dsimp only at h
          refine ⟨content, perm, t, rfl, ?_⟩
          split_ifs at h with h1 h2 h3 h4
          · cases h
          · cases h
          · cases h
          · cases h
          · exact ⟨by omega, by tauto, by tauto, by tauto⟩
        · rintro ⟨c, p, tt, hc, hsz, hmo, hti, hck⟩
          injection hc with hc
          injection hc with h1 h2 h3
          subst h1; subst h2; subst h3
          simp [hsz, hmo, hti, hck]
      · intro h; cases h
      · intro c p tt hc hor
        injection hc with hc
        injection hc with h1 h2 h3
        subst h1; subst h2; subst h3
        rcases hor with h | h | h | h <;> simp [h]
      · intro e he
        dsimp only at he
        split_ifs at he <;> cases he
    | symlink tgt t =>
      refine ⟨?_, ?_, ?_, ?_⟩
      · constructor
        · intro h; cases h
        · rintro ⟨c, p, tt, hc, _⟩; cases hc
      · intro h; cases h
      · intro c p tt hc; cases hc
      · intro e _
        exact ⟨.symlink tgt t, rfl, fun c p tt h => by cases h⟩
    | dir perm t =>
      refine ⟨?_, ?_, ?_, ?_⟩
      · constructor
        · intro h; cases h
        · rintro ⟨c, p, tt, hc, _⟩; cases hc
      · intro h; cases h
      · intro c p tt hc; cases hc
      · intro e _
        exact ⟨.dir perm t, rfl, fun c p tt h => by cases h⟩

/-- Witness for C6_verify_match: on the empty tree every manifest entry
reports no match. -/
theorem C6_verify_match_witness :
    checkProtonBinaries ctxId [] ["p"] itemC6 = .ok none :=
  (C6_verify_match ctxId [] ["p"] itemC6).2.1 rfl

/-! Supporting lemmas for the file-system model and the operation traces
of the per-file units of work. -/

theorem fsGet_fsSet_self (fs : FS) (p : FPath) (n : FsNode) :
    fsGet (fsSet fs p n) p = some n := by
  induction fs with
  | nil => simp [fsSet, fsGet]
  | cons hd tl ih =>
    by_cases h : hd.1 = p
    · simp [fsSet, fsGet, h]
    · simp [fsSet, fsGet, h, ih]

theorem fsGet_fsSet_ne (fs : FS) (p q : FPath) (n : FsNode) (h : p ≠ q) :
    fsGet (fsSet fs p n) q = fsGet fs q := by
  induction fs with
  | nil => simp [fsSet, fsGet, h]
  | cons hd tl ih =>
    by_cases h1 : hd.1 = p
    · simp [fsSet, fsGet, h1, h]
    · by_cases h2 : hd.1 = q <;> simp [fsSet, fsGet, h1, h2, ih, Ne.symm h]

theorem fsGet_fsErase_self (fs : FS) (p : FPath) :
    fsGet (fsErase fs p) p = none := by
  induction fs with
  | nil => simp [fsErase, fsGet]
  | cons hd tl ih =>
    by_cases h : hd.1 = p <;> simp [fsErase, fsGet, h, ih]

theorem fsGet_fsErase_ne (fs : FS) (p q : FPath) (h : p ≠ q) :
    fsGet (fsErase fs p) q = fsGet fs q := by
  induction fs with
  | nil => simp [fsErase, fsGet]
  | cons hd tl ih =>
    by_cases h1 : hd.1 = p
    · rw [show fsErase (hd :: tl) p = fsErase tl p by simp [fsErase, h1]]
      rw [ih]
      have : hd.1 ≠ q := by rw [h1]; exact h
      simp [fsGet, this]
    · by_cases h2 : hd.1 = q <;> simp [fsErase, fsGet, h1, h2, ih, Ne.symm h]

theorem fsSet_fsSet (fs : FS) (p : FPath) (a b : FsNode) :
    fsSet (fsSet fs p a) p b = fsSet fs p b := by
  induction fs with
  | nil => simp [fsSet]
  | cons hd tl ih =>
    by_cases h : hd.1 = p <;> simp [fsSet, h, ih]

theorem fsGet_applyWOp_ne (fs : FS) (op : WOp) (p : FPath)
    (h : p ∉ touches op) : fsGet (applyWOp fs op) p = fsGet fs p := by
  cases op with
  | mkTemp t =>
    simp [touches] at h
    simp [applyWOp, fsGet_fsSet_ne _ _ _ _ (Ne.symm h)]
  | writeTemp t c =>
    simp [touches] at h
    cases hg : fsGet fs t with
    | none => simp [applyWOp, hg]
    | some n =>
      cases n <;> simp [applyWOp, hg, fsGet_fsSet_ne _ _ _ _ (Ne.symm h)]
  | cksumEvent b s => simp [applyWOp]
  | chmod q m =>
    simp [touches] at h
    cases hg : fsGet fs q with
    | none => simp [applyWOp, hg]
    | some n =>
      cases n <;> simp [applyWOp, hg, fsGet_fsSet_ne _ _ _ _ (Ne.symm h)]
  | utime q t =>
    simp [touches] at h
    cases hg : fsGet fs q with
    | none => simp [applyWOp, hg]
    | some n =>
      cases n <;> simp [applyWOp, hg, fsGet_fsSet_ne _ _ _ _ (Ne.symm h)]
  | rename s d =>
    simp [touches] at h
    cases hg : fsGet fs s with
    | none => simp [applyWOp, hg]
    | some n =>
      simp [applyWOp, hg, fsGet_fsSet_ne _ _ _ _ (Ne.symm h.2),
        fsGet_fsErase_ne _ _ _ (Ne.symm h.1)]
  | cleanupTemp t =>
    simp [touches] at h
    simp [applyWOp, fsGet_fsErase_ne _ _ _ (Ne.symm h)]

theorem runWOps_preserve (ops : List WOp) (fs : FS) (p : FPath)
    (h : ∀ op ∈ ops, p ∉ touches op) :
    fsGet (runWOps fs ops) p = fsGet fs p := by
  induction ops generalizing fs with
  | nil => rfl
  | cons op rest ih =>
    have h1 := h op (List.mem_cons_self op rest)
    have h2 : ∀ o ∈ rest, p ∉ touches o := fun o ho => h o (List.mem_cons_of_mem _ ho)
    show fsGet (runWOps (applyWOp fs op) rest) p = fsGet fs p
    rw [ih (applyWOp fs op) h2, fsGet_applyWOp_ne fs op p h1]

theorem writeProtonFile_ok (ctx : Ctx) (fs : FS) (path tmp : FPath)
    (data : Bytes) (digest mode : Nat) (time : ℚ) (size : Nat)
    (content : Bytes)
    (hdec : ctx.bz2Decompress data size = some content)
    (hck : cksumOf ctx content = digest)
    (hne : tmp ≠ path) :
    (writeProtonFile ctx fs path tmp data digest mode time size).2 = none ∧
    fsGet (writeProtonFile ctx fs path tmp data digest mode time size).1
      path = some (.file content mode time) ∧
    fsGet (writeProtonFile ctx fs path tmp data digest mode time size).1
      tmp = none ∧
    (∀ q, q ≠ path → q ≠ tmp →
      fsGet (writeProtonFile ctx fs path tmp data digest mode time size).1 q =
        fsGet fs q) := by
  have hops : writeProtonFileOps ctx path tmp data digest mode time size =
      ([.mkTemp tmp, .writeTemp tmp content,
        .cksumEvent (usesMmap content.length) content.length,
        .chmod tmp mode, .utime tmp time, .rename tmp path,
        .cleanupTemp tmp], none) := by
    unfold writeProtonFileOps
    rw [hdec]
    dsimp only
    rw [if_neg (by simp [hck])]
  have hfold : (writeProtonFile ctx fs path tmp data digest mode time size).1 =
      fsErase (fsSet (fsErase (fsSet fs tmp (.file content mode time)) tmp)
        path (.file content mode time)) tmp := by
    unfold writeProtonFile
    rw [hops]
    simp only [runWOps, List.foldl_cons, List.foldl_nil]
    simp only [applyWOp, fsGet_fsSet_self, fsSet_fsSet]
  have hexc : (writeProtonFile ctx fs path tmp data digest mode time size).2 =
      none := by
    unfold writeProtonFile
    rw [hops]
  refine ⟨hexc, ?_, ?_, ?_⟩
  · rw [hfold, fsGet_fsErase_ne _ _ _ hne, fsGet_fsSet_self]
  · rw [hfold, fsGet_fsErase_self]
  · intro q hq1 hq2
    rw [hfold, fsGet_fsErase_ne _ _ _ (Ne.symm hq2),
      fsGet_fsSet_ne _ _ _ _ (Ne.symm hq1),
      fsGet_fsErase_ne _ _ _ (Ne.symm hq2),
      fsGet_fsSet_ne _ _ _ _ (Ne.symm hq2)]

theorem writeProtonFile_mismatch (ctx : Ctx) (fs : FS) (path tmp : FPath)
    (data : Bytes) (digest mode : Nat) (time : ℚ) (size : Nat)
    (content : Bytes)
    (hdec : ctx.bz2Decompress data size = some content)
    (hck : cksumOf ctx content ≠ digest) :
    (writeProtonFile ctx fs path tmp data digest mode time size).2 =
      some (.valueError "Digest mismatch when creating file") ∧
    fsGet (writeProtonFile ctx fs path tmp data digest mode time size).1
      tmp = none ∧
    (∀ q, q ≠ tmp →
      fsGet (writeProtonFile ctx fs path tmp data digest mode time size).1 q =
        fsGet fs q) := by
  have hops : writeProtonFileOps ctx path tmp data digest mode time size =
      ([.mkTemp tmp, .writeTemp tmp content,
        .cksumEvent (usesMmap content.length) content.length,
        .cleanupTemp tmp],
       some (.valueError "Digest mismatch when creating file")) := by
    unfold writeProtonFileOps
    rw [hdec]
    dsimp only
    rw [if_pos hck]
  have hfold : (writeProtonFile ctx fs path tmp data digest mode time size).1 =
      fsErase (fsSet fs tmp (.file content 0o600 0)) tmp := by
    unfold writeProtonFile
    rw [hops]
    simp only [runWOps, List.foldl_cons, List.foldl_nil]
    simp only [applyWOp, fsGet_fsSet_self, fsSet_fsSet]
  refine ⟨by unfold writeProtonFile; rw [hops], ?_, ?_⟩
  · rw [hfold, fsGet_fsErase_self]
  · intro q hq
    rw [hfold, fsGet_fsErase_ne _ _ _ (Ne.symm hq),
      fsGet_fsSet_ne _ _ _ _ (Ne.symm hq)]

theorem writeProtonFile_decfail (ctx : Ctx) (fs : FS) (path tmp : FPath)
    (data : Bytes) (digest mode : Nat) (time : ℚ) (size : Nat)
    (hdec : ctx.bz2Decompress data size = none) :
    (writeProtonFile ctx fs path tmp data digest mode time size).2 =
      some .osError ∧
    fsGet (writeProtonFile ctx fs path tmp data digest mode time size).1
      tmp = none ∧
    (∀ q, q ≠ tmp →
      fsGet (writeProtonFile ctx fs path tmp data digest mode time size).1 q =
        fsGet fs q) := by
  have hops : writeProtonFileOps ctx path tmp data digest mode time size =
      ([.mkTemp tmp, .cleanupTemp tmp], some .osError) := by
    unfold writeProtonFileOps
    rw [hdec]
  have hfold : (writeProtonFile ctx fs path tmp data digest mode time size).1 =
      fsErase (fsSet fs tmp (.file [] 0o600 0)) tmp := by
    unfold writeProtonFile
    rw [hops]
    simp only [runWOps, List.foldl_cons, List.foldl_nil]
    simp only [applyWOp]
  refine ⟨by unfold writeProtonFile; rw [hops], ?_, ?_⟩
  · rw [hfold, fsGet_fsErase_self]
  · intro q hq
    rw [hfold, fsGet_fsErase_ne _ _ _ (Ne.symm hq),
      fsGet_fsSet_ne _ _ _ _ (Ne.symm hq)]

/-- Claim C7: on a checksum mismatch during an add the unit of work raises
a ValueError, the temp file is discarded and the target path is never
created or modified; in every run the only operation that can change the
target path is the single rename, performed only after verification
succeeds, so any rename-free prefix of the operation trace leaves the
target exactly as it was, and on success the target holds the fully new
content. -/
theorem C7_add_atomic (ctx : Ctx) (fs : FS) (path tmp : FPath) (data : Bytes)
    (digest mode : Nat) (time : ℚ) (size : Nat) (hne : tmp ≠ path) :
    (∀ content, ctx.bz2Decompress data size = some content →
      cksumOf ctx content ≠ digest →
      (writeProtonFile ctx fs path tmp data digest mode time size).2 =
        some (.valueError "Digest mismatch when creating file") ∧
      fsGet (writeProtonFile ctx fs path tmp data digest mode time size).1
        path = fsGet fs path ∧
      fsGet (writeProtonFile ctx fs path tmp data digest mode time size).1
        tmp = none) ∧
    (∀ src dst,
      WOp.rename src dst ∈
        (writeProtonFileOps ctx path tmp data digest mode time size).1 →
      src = tmp ∧ dst = path) ∧
    (∀ l1 l2,
      (writeProtonFileOps ctx path tmp data digest mode time size).1 =
        l1 ++ l2 →
      (∀ src dst, WOp.rename src dst ∉ l1) →
      fsGet (runWOps fs l1) path = fsGet fs path) ∧
    (∀ content, ctx.bz2Decompress data size = some content →
      cksumOf ctx content = digest →
      (writeProtonFile ctx fs path tmp data digest mode time size).2 = none ∧
      fsGet (writeProtonFile ctx fs path tmp data digest mode time size).1
        path = some (.file content mode time)) := by
  have haux : ∀ op ∈ (writeProtonFileOps ctx path tmp data digest mode
      time size).1, op = WOp.rename tmp path ∨
      ((∀ s d, op ≠ WOp.rename s d) ∧ path ∉ touches op) := by
    intro op hmem
    unfold writeProtonFileOps at hmem
    rcases hd : ctx.bz2Decompress data size with _ | c <;> rw [hd] at hmem
    · simp at hmem
      rcases hmem with h | h <;> subst h <;> right <;>
        exact ⟨by simp, by simp [touches, Ne.symm hne]⟩
    · dsimp only at hmem
      split at hmem <;> simp at hmem
      · rcases hmem with h | h | h | h <;> subst h <;> right <;>
          exact ⟨by simp, by simp [touches, Ne.symm hne]⟩
      · rcases hmem with h | h | h | h | h | h | h <;> subst h <;>
          first
            | (left; rfl)
            | (right; exact ⟨by simp, by simp [touches, Ne.symm hne]⟩)
  refine ⟨?_, ?_, ?_, ?_⟩
  · intro content hdec hck
    obtain ⟨h1, h2, h3⟩ := writeProtonFile_mismatch ctx fs path tmp data
      digest mode time size content hdec hck
    exact ⟨h1, h3 path (Ne.symm hne), h2⟩
  · intro src dst hmem
    rcases haux (WOp.rename src dst) hmem with h | h
    · injection h with h1 h2; exact ⟨h1, h2⟩
    · exact absurd rfl (h.1 src dst)
  · intro l1 l2 heq hnoren
    apply runWOps_preserve
    intro op hop
    have hfull : op ∈ (writeProtonFileOps ctx path tmp data digest mode
        time size).1 := by
      rw [heq]; exact List.mem_append_left _ hop
    rcases haux op hfull with h | h
    · subst h; exact absurd hop (hnoren tmp path)
    · exact h.2
  · intro content hdec hck
    obtain ⟨h1, h2, _, _⟩ := writeProtonFile_ok ctx fs path tmp data digest
      mode time size content hdec hck hne
    exact ⟨h1, h2⟩

/-- Claim C8: for an update of a regular file, if the binary patch raises
(OS error or keyboard interrupt) or the recomputed checksum differs from
the entry's, the unit of work re-raises the error, the file is left in its
post-patch unverified state with mode bits 0o700 and its pre-update mtime,
and the permissive-mode-bits warning is logged before the error
propagates. -/
theorem C8_patch_failure (ctx : Ctx) (fs : FS) (path : FPath) (bdiff : Bytes)
    (digest mode : Nat) (time : ℚ) (content : Bytes) (perm : Nat) (t : ℚ)
    (hget : fsGet fs path = some (.file content perm t)) :
    (∀ e patched, ctx.bspatch content bdiff = (some e, patched) →
      patchProtonFile ctx fs path bdiff digest mode time =
        (fsSet fs path (.file patched 0o700 t), some e, [warn700])) ∧
    (∀ patched, ctx.bspatch content bdiff = (none, patched) →
      cksumOf ctx patched ≠ digest →
      patchProtonFile ctx fs path bdiff digest mode time =
        (fsSet fs path (.file patched 0o700 t),
         some (.valueError "Digest mismatch for binary patched result"),
         [warn700])) := by
  constructor
  · intro e patched hbsp
    unfold patchProtonFile
    rw [hget]
    dsimp only
    rw [hbsp]
  · intro patched hbsp hck
    unfold patchProtonFile
    rw [hget]
    dsimp only
    rw [hbsp]
    dsimp only
    rw [if_pos hck]

/-- Witness for C7_add_atomic: a four-byte add whose checksum mismatches
raises a ValueError, leaves the target absent and discards the temp
file. -/
theorem C7_add_atomic_witness :
    (writeProtonFile ctxId [] ["p", "x"] ["c", "t"]
      [65, 65, 65, 65] 999 0o755 5 4).2 =
      some (.valueError "Digest mismatch when creating file") ∧
    fsGet (writeProtonFile ctxId [] ["p", "x"] ["c", "t"]
      [65, 65, 65, 65] 999 0o755 5 4).1 ["p", "x"] =
      fsGet ([] : FS) ["p", "x"] ∧
    fsGet (writeProtonFile ctxId [] ["p", "x"] ["c", "t"]
      [65, 65, 65, 65] 999 0o755 5 4).1 ["c", "t"] = none :=
  (C7_add_atomic ctxId [] ["p", "x"] ["c", "t"] [65, 65, 65, 65] 999 0o755
    5 4 (by decide)).1 [65, 65, 65, 65] rfl (by decide)

/-- Witness for C8_patch_failure: an interrupted patch of a three-byte file
re-raises the interrupt, leaves the file with mode bits 0o700 and its
pre-update mtime, and logs the permissive-mode warning. -/
theorem C8_patch_failure_witness :
    patchProtonFile ctxInterrupt fsC8 ["p", "b"] [] 0 0o644 9 =
      (fsSet fsC8 ["p", "b"] (.file [1, 2, 3] 0o700 7), some .interrupt,
        [warn700]) :=
  (C8_patch_failure ctxInterrupt fsC8 ["p", "b"] [] 0 0o644 9 [1, 2, 3]
    0o555 7 rfl).1 .interrupt [1, 2, 3] rfl

/-! Accounting lemmas for the four patcher operations (claim C2). -/

theorem addBinaries_acc (proton : FPath) :
    ∀ (items : List Entry) (st st' : PatcherSt),
    addBinaries proton items st = (st', none) →
    st'.futures = st.futures ++
      (items.filter (fun e => e.type = .file)).map (fileWork proton) ∧
    st'.submitted = st.submitted ++
      (items.filter (fun e => e.type = .file)).map (fileWork proton) := by
  intro items
  induction items with
  | nil =>
    intro st st' h
    injection h with h1 _
    subst h1
    simp
  | cons item rest ih =>
    intro st st' h
    unfold addBinaries at h
    by_cases hf : item.type = .file
    · rw [if_pos hf] at h
      have := ih _ _ h
      simp [hf, fileWork, List.filter_cons, this.1, this.2]
    · rw [if_neg hf] at h
      by_cases hl : item.type = .link
      · rw [if_pos hl] at h
        cases hg : fsGet st.fs (pathJoin proton item.name) with
        | some n =>
          rw [hg] at h
          injection h with _ h2
          cases h2
        | none =>
          rw [hg] at h
          have := ih _ _ h
          simp only [List.filter_cons, hf] at *
          simpa [hf] using this
      · rw [if_neg hl] at h
        by_cases hd : item.type = .dirT
        · rw [if_pos hd] at h
          cases hg : fsGet st.fs (pathJoin proton item.name) with
          | none =>
            rw [hg] at h
            have := ih _ _ h
            simpa [hf] using this
          | some n =>
            rw [hg] at h
            cases n with
            | dir perm t =>
              have := ih _ _ h
              simpa [hf] using this
            | file c p t =>
              injection h with _ h2
              cases h2
            | symlink tgt t =>
              injection h with _ h2
              cases h2
        · rw [if_neg hd] at h
          have := ih _ _ h
          simpa [hf] using this

theorem updateBinaries_acc (proton : FPath) :
    ∀ (items : List Entry) (st st' : PatcherSt),
    updateBinaries proton items st = (st', none) →
    st'.futures = st.futures ++
      (items.filter (fun e => e.type = .file)).map (patchWork proton) ∧
    st'.submitted = st.submitted ++
      (items.filter (fun e => e.type = .file)).map (patchWork proton) := by
  intro items
  induction items with
  | nil =>
    intro st st' h
    injection h with h1 _
    subst h1
    simp
  | cons item rest ih =>
    intro st st' h
    unfold updateBinaries at h
    by_cases hf : item.type = .file
    · rw [if_pos hf] at h
      have := ih _ _ h
      simp [hf, patchWork, List.filter_cons, this.1, this.2]
    · rw [if_neg hf] at h
      by_cases hd : item.type = .dirT
      · rw [if_pos hd] at h
        cases hg : fsGet st.fs (pathJoin proton item.name) with
        | none =>
          rw [hg] at h
          injection h with _ h2
          cases h2
        | some n =>
          rw [hg] at h
          cases n with
          | file c p t =>
            have := ih _ _ h
            simpa [hf] using this
          | dir p t =>
            have := ih _ _ h
            simpa [hf] using this
          | symlink tgt t =>
            injection h with _ h2
            cases h2
      · rw [if_neg hd] at h
        by_cases hl : item.type = .link
        · rw [if_pos hl] at h
          cases hg : fsGet st.fs (pathJoin proton item.name) with
          | none =>
            rw [hg] at h
            injection h with _ h2
            cases h2
          | some n =>
            rw [hg] at h
            cases n with
            | dir p t =>
              injection h with _ h2
              cases h2
            | file c p t =>
              have := ih _ _ h
              simpa [hf] using this
            | symlink tgt t =>
              have := ih _ _ h
              simpa [hf] using this
        · rw [if_neg hl] at h
          have := ih _ _ h
          simpa [hf] using this

theorem verifyIntegrity_acc (proton : FPath) :
    ∀ (manifest : List ManifestEntry) (st : PatcherSt),
    (verifyIntegrity proton manifest st).futures =
      st.futures ++ manifest.map (Work.checkF proton) ∧
    (verifyIntegrity proton manifest st).submitted =
      st.submitted ++ manifest.map (Work.checkF proton) := by
  intro manifest
  induction manifest with
  | nil => intro st; simp [verifyIntegrity]
  | cons item rest ih =>
    intro st
    unfold verifyIntegrity
    have := ih { st with
      submitted := st.submitted ++ [.checkF proton item],
      futures := st.futures ++ [.checkF proton item] }
    simpa using this

theorem deleteBinaries_acc (proton : FPath) :
    ∀ (items : List Entry) (st : PatcherSt),
    (deleteBinaries proton items st).1.futures = st.futures ∧
    ((deleteBinaries proton items st).2 = none →
      (deleteBinaries proton items st).1.submitted = st.submitted ++
        (items.filter (fun e => e.type = .dirT)).map
          (fun e => Work.rmtreeW (pathJoin proton e.name))) := by
  intro items
  induction items with
  | nil => intro st; simp [deleteBinaries]
  | cons item rest ih =>
    intro st
    unfold deleteBinaries
    by_cases hfl : item.type = .file ∨ item.type = .link
    · rw [if_pos hfl]
      have hnd : ¬ item.type = .dirT := by
        rcases hfl with h | h <;> simp [h]
      cases hg : fsGet st.fs (pathJoin proton item.name) with
      | none =>
        have := ih { st with fs := fsErase st.fs (pathJoin proton item.name) }
        simpa [hnd] using this
      | some n =>
        cases n with
        | dir p t => simp
        | file c p t =>
          have := ih { st with fs := fsErase st.fs (pathJoin proton item.name) }
          simpa [hnd] using this
        | symlink tgt t =>
          have := ih { st with fs := fsErase st.fs (pathJoin proton item.name) }
          simpa [hnd] using this
    · rw [if_neg hfl]
      have hnf : ¬ item.type = .file := fun h => hfl (Or.inl h)
      by_cases hd : item.type = .dirT
      · rw [if_pos hd]
        have := ih { st with
          submitted := st.submitted ++ [.rmtreeW (pathJoin proton item.name)] }
        simp only [hd, List.filter_cons] at *
        constructor
        · exact this.1
        · intro hnone
          rw [this.2 hnone]
          simp
      · rw [if_neg hd]
        have := ih st
        simpa [hd] using this

theorem awaitAll_none_iff (ctx : Ctx) :
    ∀ (ws : List Work) (fs : FS) (tmps : List FPath),
    (awaitAll ctx fs ws tmps).2 = none ↔ allOk ctx fs ws tmps := by
  intro ws
  induction ws with
  | nil => intro fs tmps; simp [awaitAll, allOk]
  | cons w rest ih =>
    intro fs tmps
    constructor
    · intro h
      unfold awaitAll at h
      dsimp only at h
      cases he : (runWork ctx fs w (tmps.headD [])).2 with
      | some e =>
        rw [he] at h
        exact absurd h (by simp)
      | none =>
        rw [he] at h
        exact ⟨he, (ih _ _).mp h⟩
    · rintro ⟨h1, h2⟩
      unfold awaitAll
      dsimp only
      rw [h1]
      exact (ih _ _).mpr h2

/-- Claim C2 is false as stated: a directory deletion is submitted to the
pool but its future is not collected into the futures returned by
result(), so an exception it raises (here: rmtree of a missing directory)
never propagates through the collection step; and a symlink addition is
performed synchronously, never enqueued onto the pool at all. -/
theorem C2_counterexample :
    (deleteBinaries ["p"] [entryDirDel] emptySt).2 = none ∧
    (deleteBinaries ["p"] [entryDirDel] emptySt).1.submitted =
      [.rmtreeW ["p", "d"]] ∧
    (deleteBinaries ["p"] [entryDirDel] emptySt).1.futures = [] ∧
    (runWork ctxId [] (.rmtreeW ["p", "d"]) []).2 = some .fileNotFound ∧
    (awaitAll ctxId []
      (deleteBinaries ["p"] [entryDirDel] emptySt).1.futures []).2 = none ∧
    (addBinaries ["p"] [entryLinkAdd] emptySt).2 = none ∧
    (addBinaries ["p"] [entryLinkAdd] emptySt).1.submitted = [] := by
  refine ⟨rfl, rfl, rfl, rfl, rfl, rfl, rfl⟩

/-- Claim C2 as amended: add and update enqueue one unit of work per
regular-file entry and collect its future; verify enqueues and collects
one unit per manifest entry; delete submits directory removals to the pool
WITHOUT collecting their futures (their exceptions never reach result());
symlink and directory additions and updates, and file and symlink
deletions, run synchronously on the calling thread.  Awaiting the
collected futures reports no exception exactly when every collected unit
of work completed without raising, and every unit runs regardless of
earlier failures. -/
theorem C2_pool_accounting :
    (∀ proton items st st', addBinaries proton items st = (st', none) →
      st'.futures = st.futures ++
        (items.filter (fun e => e.type = .file)).map (fileWork proton) ∧
      st'.submitted = st.submitted ++
        (items.filter (fun e => e.type = .file)).map (fileWork proton)) ∧
    (∀ proton items st st', updateBinaries proton items st = (st', none) →
      st'.futures = st.futures ++
        (items.filter (fun e => e.type = .file)).map (patchWork proton) ∧
      st'.submitted = st.submitted ++
        (items.filter (fun e => e.type = .file)).map (patchWork proton)) ∧
    (∀ proton manifest st,
      (verifyIntegrity proton manifest st).futures =
        st.futures ++ manifest.map (Work.checkF proton) ∧
      (verifyIntegrity proton manifest st).submitted =
        st.submitted ++ manifest.map (Work.checkF proton)) ∧
    (∀ proton items st,
      (deleteBinaries proton items st).1.futures = st.futures ∧
      ((deleteBinaries proton items st).2 = none →
        (deleteBinaries proton items st).1.submitted = st.submitted ++
          (items.filter (fun e => e.type = .dirT)).map
            (fun e => Work.rmtreeW (pathJoin proton e.name)))) ∧
    (∀ ctx ws fs tmps,
      (awaitAll ctx fs ws tmps).2 = none ↔ allOk ctx fs ws tmps) :=
  ⟨addBinaries_acc, updateBinaries_acc, verifyIntegrity_acc,
    deleteBinaries_acc, awaitAll_none_iff⟩

/-- Witness for C2_pool_accounting: verifying a one-entry manifest collects
exactly that check. -/
theorem C2_pool_accounting_witness :
    (verifyIntegrity ["p"] [itemC6] emptySt).futures =
      [Work.checkF ["p"] itemC6] := by
  simpa using (C2_pool_accounting.2.2.1 ["p"] [itemC6] emptySt).1

/-! Composition lemmas for awaited futures, and claim C1. -/

theorem writeProtonFileOps_touches (ctx : Ctx) (path tmp : FPath)
    (data : Bytes) (digest mode : Nat) (time : ℚ) (size : Nat) :
    ∀ op ∈ (writeProtonFileOps ctx path tmp data digest mode time size).1,
    ∀ r ∈ touches op, r = tmp ∨ r = path := by
  intro op hmem
  unfold writeProtonFileOps at hmem
  rcases hd : ctx.bz2Decompress data size with _ | c <;> rw [hd] at hmem
  · simp at hmem
    rcases hmem with h | h <;> subst h <;> simp [touches]
  · dsimp only at hmem
    split at hmem <;> simp at hmem
    · rcases hmem with h | h | h | h <;> subst h <;> simp [touches]
    · rcases hmem with h | h | h | h | h | h | h <;> subst h <;>
        simp [touches]

theorem writeProtonFile_preserve (ctx : Ctx) (fs : FS) (path tmp : FPath)
    (data : Bytes) (digest mode : Nat) (time : ℚ) (size : Nat) (q : FPath)
    (hq1 : q ≠ path) (hq2 : q ≠ tmp) :
    fsGet (writeProtonFile ctx fs path tmp data digest mode time size).1 q =
      fsGet fs q := by
  unfold writeProtonFile
  apply runWOps_preserve
  intro op hop hq
  rcases writeProtonFileOps_touches ctx path tmp data digest mode time size
    op hop q hq with h | h
  · exact hq2 h
  · exact hq1 h

theorem awaitAll_append_fs (ctx : Ctx) :
    ∀ (ws1 ws2 : List Work) (fs : FS) (tmps : List FPath),
    (awaitAll ctx fs (ws1 ++ ws2) tmps).1 =
      (awaitAll ctx (awaitAll ctx fs ws1 tmps).1 ws2
        (tmps.drop ws1.length)).1 := by
  intro ws1
  induction ws1 with
  | nil => intro ws2 fs tmps; simp [awaitAll]
  | cons w rest ih =>
    intro ws2 fs tmps
    have htail : tmps.tail.drop rest.length = tmps.drop (rest.length + 1) := by
      cases tmps <;> simp
    show (awaitAll ctx (runWork ctx fs w (tmps.headD [])).1 (rest ++ ws2)
        tmps.tail).1 = _
    rw [ih ws2 (runWork ctx fs w (tmps.headD [])).1 tmps.tail, htail]
    rfl

theorem awaitAll_preserve_writeF (ctx : Ctx) (p : FPath) (hp : p ≠ []) :
    ∀ (ws : List Work) (fs : FS) (tmps : List FPath),
    (∀ w ∈ ws, ∃ path data ck mo t sz,
      w = Work.writeF path data ck mo t sz ∧ path ≠ p) →
    (∀ t ∈ tmps, t ≠ p) →
    fsGet (awaitAll ctx fs ws tmps).1 p = fsGet fs p := by
  intro ws
  induction ws with
  | nil => intro fs tmps _ _; rfl
  | cons w rest ih =>
    intro fs tmps hws htmps
    obtain ⟨path, data, ck, mo, t, sz, hw, hne⟩ :=
      hws w (List.mem_cons_self w rest)
    have htmp : tmps.headD [] ≠ p := by
      cases tmps with
      | nil => simpa using fun h => hp h.symm.symm
      | cons a l => exact htmps a (List.mem_cons_self a l)
    show fsGet (awaitAll ctx (runWork ctx fs w (tmps.headD [])).1 rest
        tmps.tail).1 p = fsGet fs p
    rw [ih (runWork ctx fs w (tmps.headD [])).1 tmps.tail
      (fun w' hw' => hws w' (List.mem_cons_of_mem _ hw'))
      (fun t' ht' => htmps t' (List.mem_of_mem_tail ht'))]
    subst hw
    show fsGet (writeProtonFile ctx fs path (tmps.headD []) data ck mo t
        sz).1 p = fsGet fs p
    exact writeProtonFile_preserve ctx fs path (tmps.headD []) data ck mo t
      sz p (Ne.symm hne) (Ne.symm htmp)

/-- Claim C1: for an add entry of regular-file type whose data decompresses
to content matching the entry's checksum (and size), once add_binaries has
run and all collected futures have been awaited, the file exists at the
root joined with the entry's name, its content is the decompressed data,
its permission bits are the entry's mode, its mtime is the entry's time,
and the entry's own unit of work raises no exception.  Hypotheses: entry
names are unique within the package (spec invariant) and the run-time temp
names are distinct from every target path (temp files live in the cache
directory). -/
theorem C1_add_end_to_end (ctx : Ctx) (fs : FS) (proton : FPath)
    (items : List Entry) (e : Entry) (content : Bytes) (st1 : PatcherSt)
    (fs2 : FS) (exc : Option Exc) (tmps : List FPath)
    (he : e ∈ items) (hef : e.type = .file)
    (hdec : ctx.bz2Decompress e.data e.size = some content)
    (hlen : content.length = e.size)
    (hck : cksumOf ctx content = e.cksum)
    (hnd : (items.map Entry.name).Nodup)
    (hadd : addBinaries proton items ⟨fs, [], []⟩ = (st1, none))
    (htmps : ∀ t ∈ tmps, ∀ i ∈ items, t ≠ pathJoin proton i.name)
    (hawait : awaitAll ctx st1.fs st1.futures tmps = (fs2, exc)) :
    fsGet fs2 (pathJoin proton e.name) =
      some (.file content e.mode e.time) ∧
    (∀ fs' tmp, tmp ≠ pathJoin proton e.name →
      (runWork ctx fs' (fileWork proton e) tmp).2 = none) := by
  have hpne : pathJoin proton e.name ≠ [] := by simp [pathJoin]
  have hrun_ok : ∀ (fs' : FS) (tmp : FPath),
      tmp ≠ pathJoin proton e.name →
      (runWork ctx fs' (fileWork proton e) tmp).2 = none ∧
      fsGet (runWork ctx fs' (fileWork proton e) tmp).1
        (pathJoin proton e.name) = some (.file content e.mode e.time) := by
    intro fs' tmp htmp
    have hok := writeProtonFile_ok ctx fs' (pathJoin proton e.name) tmp
      e.data e.cksum e.mode e.time e.size content hdec hck htmp
    exact ⟨hok.1, hok.2.1⟩
  refine ⟨?_, fun fs' tmp htmp => (hrun_ok fs' tmp htmp).1⟩
  have hacc := (addBinaries_acc proton items ⟨fs, [], []⟩ st1 hadd).1
  rw [List.nil_append] at hacc
  have hef' : e ∈ items.filter (fun x => x.type = .file) :=
    List.mem_filter.mpr ⟨he, by simp [hef]⟩
  obtain ⟨l1, l2, hsplit⟩ := List.append_of_mem hef'
  have hsubl1 : ∀ i ∈ l1, i ∈ items := by
    intro i hi
    have hm : i ∈ items.filter (fun x => x.type = .file) := by
      rw [hsplit]; exact List.mem_append_left _ hi
    exact (List.mem_filter.mp hm).1
  have hsubl2 : ∀ i ∈ l2, i ∈ items := by
    intro i hi
    have hm : i ∈ items.filter (fun x => x.type = .file) := by
      rw [hsplit]
      exact List.mem_append_right _ (List.mem_cons_of_mem _ hi)
    exact (List.mem_filter.mp hm).1
  have hndf : ((items.filter (fun x => x.type = .file)).map
      Entry.name).Nodup :=
    List.Nodup.sublist ((List.filter_sublist _).map _) hnd
  rw [hsplit, List.map_append, List.map_cons] at hndf
  obtain ⟨hnd1, hnd2, hdisj⟩ := List.nodup_append.mp hndf
  have hl1names : ∀ i ∈ l1, i.name ≠ e.name := by
    intro i hi heq
    exact hdisj (heq ▸ List.mem_map_of_mem _ hi) (List.mem_cons_self _ _)
  have hl2names : ∀ i ∈ l2, i.name ≠ e.name := by
    intro i hi heq
    exact (List.nodup_cons.mp hnd2).1 (heq ▸ List.mem_map_of_mem _ hi)
  have hpathne : ∀ (i : Entry), i.name ≠ e.name →
      pathJoin proton i.name ≠ pathJoin proton e.name := by
    intro i hne heq
    apply hne
    have := List.append_cancel_left heq
    simpa using this
  -- decompose the futures and compose awaitAll
  have hfut : st1.futures =
      l1.map (fileWork proton) ++
        (fileWork proton e :: l2.map (fileWork proton)) := by
    rw [hacc, hsplit, List.map_append, List.map_cons]
  have hfs2 : fs2 = (awaitAll ctx st1.fs st1.futures tmps).1 := by
    rw [hawait]
  rw [hfs2, hfut, awaitAll_append_fs]
  set fsA := (awaitAll ctx st1.fs (l1.map (fileWork proton)) tmps).1
  set tmps1 := tmps.drop (l1.map (fileWork proton)).length with htmps1
  have htsub1 : ∀ t ∈ tmps1, t ∈ tmps := fun t ht =>
    List.drop_subset _ _ ht
  have htmpE : tmps1.headD [] ≠ pathJoin proton e.name := by
    cases h1 : tmps1 with
    | nil => simpa using fun hcon => hpne hcon.symm.symm
    | cons a l =>
      have : a ∈ tmps := htsub1 a (h1 ▸ List.mem_cons_self a l)
      simpa using htmps a this e he
  show fsGet (awaitAll ctx
      (runWork ctx fsA (fileWork proton e) (tmps1.headD [])).1
      (l2.map (fileWork proton)) tmps1.tail).1 (pathJoin proton e.name) = _
  rw [awaitAll_preserve_writeF ctx (pathJoin proton e.name) hpne
    (l2.map (fileWork proton))
    (runWork ctx fsA (fileWork proton e) (tmps1.headD [])).1 tmps1.tail ?wlist ?tlist]
  · exact (hrun_ok fsA (tmps1.headD []) htmpE).2
  case wlist =>
    intro w hw
    obtain ⟨i, hi, hwi⟩ := List.mem_map.mp hw
    exact ⟨pathJoin proton i.name, i.data, i.cksum, i.mode, i.time, i.size,
      hwi ▸ rfl, hpathne i (hl2names i hi)⟩
  case tlist =>
    intro t ht
    have ht' : t ∈ tmps := htsub1 t (List.mem_of_mem_tail ht)
    exact htmps t ht' e he

/-- Witness for C1_add_end_to_end: the concrete end-to-end scenario, adding
bin/x with content AAAA, mode 0o755 and mtime 5 to an empty tree. -/
theorem C1_add_end_to_end_witness :
    fsGet (awaitAll ctxId
      (addBinaries ["p"] [entryC1] ⟨[], [], []⟩).1.fs
      (addBinaries ["p"] [entryC1] ⟨[], [], []⟩).1.futures
      [["c", "t0"]]).1 (pathJoin ["p"] entryC1.name) =
      some (.file [65, 65, 65, 65] 0o755 5) :=
  (C1_add_end_to_end ctxId [] ["p"] [entryC1] entryC1 [65, 65, 65, 65]
    (addBinaries ["p"] [entryC1] ⟨[], [], []⟩).1
    (awaitAll ctxId (addBinaries ["p"] [entryC1] ⟨[], [], []⟩).1.fs
      (addBinaries ["p"] [entryC1] ⟨[], [], []⟩).1.futures
      [["c", "t0"]]).1
    (awaitAll ctxId (addBinaries ["p"] [entryC1] ⟨[], [], []⟩).1.fs
      (addBinaries ["p"] [entryC1] ⟨[], [], []⟩).1.futures
      [["c", "t0"]]).2
    [["c", "t0"]]
    (by decide) rfl rfl rfl rfl (by decide) rfl (by decide) rfl).1

/-- Claim C9: on the in-process download path, a non-success HTTP status on
either network read raises an HTTPException, a digest mismatch over the
fully downloaded archive raises a ValueError, and extraction only ever
receives content whose incrementally computed hash equals the digest
extracted from the checksum manifest — the unverified archive is never
installed. -/
theorem C9_fetch_verify (H : Bytes → String) (archive : String)
    (inp : FetchInputs) (hpy : ¬ inp.zenityEnv ∨ inp.zenityRet ≠ 0) :
    (inp.sumsStatus ≠ 200 →
      installUmuFetch H archive inp = .error (.httpError inp.sumsStatus)) ∧
    (inp.sumsStatus = 200 → inp.arcStatus ≠ 200 →
      installUmuFetch H archive inp = .error (.httpError inp.arcStatus)) ∧
    (inp.sumsStatus = 200 → inp.arcStatus = 200 →
      H inp.arcChunks.flatten ≠ parseSums inp.sumsBody archive →
      installUmuFetch H archive inp =
        .error (.valueError "Digest mismatched")) ∧
    (∀ c, installUmuFetch H archive inp = .ok (some c) →
      c = inp.arcChunks.flatten ∧
      H c = parseSums inp.sumsBody archive ∧
      inp.sumsStatus = 200 ∧ inp.arcStatus = 200) := by
  unfold installUmuFetch
  rw [if_pos hpy]
  refine ⟨?_, ?_, ?_, ?_⟩
  · intro h
    rw [if_pos h]
  · intro h1 h2
    rw [if_neg (by simp [h1])]
    dsimp only
    rw [if_pos h2]
  · intro h1 h2 h3
    rw [if_neg (by simp [h1])]
    dsimp only
    rw [if_neg (by simp [h2])]
    rw [if_pos h3]
  · intro c hok
    by_cases a : inp.sumsStatus ≠ 200
    · rw [if_pos a] at hok
      cases hok
    · rw [if_neg a] at hok
      dsimp only at hok
      by_cases b : inp.arcStatus ≠ 200
      · rw [if_pos b] at hok
        cases hok
      · rw [if_neg b] at hok
        by_cases cc :
          H inp.arcChunks.flatten ≠ parseSums inp.sumsBody archive
        · rw [if_pos cc] at hok
          cases hok
        · rw [if_neg cc] at hok
          injection hok with hok
          injection hok with hok
          subst hok
          exact ⟨rfl, not_not.mp cc, not_not.mp a, not_not.mp b⟩

/-- Witness for C9_fetch_verify: a 404 on the checksum-manifest read
raises. -/
theorem C9_fetch_verify_witness :
    installUmuFetch (fun _ => "d") "a" ⟨false, 0, 404, "", 200, []⟩ =
      .error (.httpError 404) :=
  (C9_fetch_verify (fun _ => "d") "a" ⟨false, 0, 404, "", 200, []⟩
    (Or.inl (by decide))).1 (by decide)

set_option maxRecDepth 100000

/-! Digest-engine lemmas and claims C4 and C5. -/

theorem digestRecords_append (es1 es2 : List TopEntry) :
    digestRecords (es1 ++ es2) = digestRecords es1 ++ digestRecords es2 := by
  simp [digestRecords, List.filter_append]

theorem packStream_isSome_of (r : StatRec) :
    ∀ (l1 l2 : List StatRec),
    (packStream (l1 ++ r :: l2)).isSome → (packRecord r).isSome := by
  intro l1
  induction l1 with
  | nil =>
    intro l2 hs
    rw [List.nil_append, packStream] at hs
    cases hr : packRecord r with
    | none => rw [hr] at hs; simp at hs
    | some p => simp
  | cons a l1 ih =>
    intro l2 hs
    rw [List.cons_append, packStream] at hs
    cases ha : packRecord a with
    | none => rw [ha] at hs; simp at hs
    | some pa =>
      rw [ha] at hs
      cases ht : packStream (l1 ++ r :: l2) with
      | none => rw [ht] at hs; simp at hs
      | some xs => exact ih l2 (by rw [ht]; simp)

theorem packStream_ne (r r' : StatRec)
    (hne : packRecord r ≠ packRecord r') :
    ∀ (l1 l2 : List StatRec),
    (packStream (l1 ++ r :: l2)).isSome →
    packStream (l1 ++ r :: l2) ≠ packStream (l1 ++ r' :: l2) := by
  intro l1
  induction l1 with
  | nil =>
    intro l2 hs
    rw [List.nil_append, packStream] at hs ⊢
    rw [List.nil_append, packStream]
    cases hr : packRecord r with
    | none => rw [hr] at hs; simp at hs
    | some p =>
      cases hr' : packRecord r' with
      | none =>
        simp only [Option.bind_none, Option.some_bind]
        cases hl2 : packStream l2 with
        | none => rw [hl2] at hs; simp at hs
        | some xs => simp
      | some p' =>
        have hpp : p ≠ p' := fun e => hne (by rw [hr, hr', e])
        cases hl2 : packStream l2 with
        | none => rw [hl2] at hs; simp at hs
        | some xs => simp [hl2, hpp]
  | cons a l1 ih =>
    intro l2 hs
    rw [List.cons_append, packStream] at hs
    rw [List.cons_append, List.cons_append, packStream, packStream]
    cases ha : packRecord a with
    | none => rw [ha] at hs; simp at hs
    | some pa =>
      have hs' : (packStream (l1 ++ r :: l2)).isSome := by
        cases ht : packStream (l1 ++ r :: l2) with
        | none => rw [ht] at hs; simp at hs
        | some xs => simp
      have hih := ih l2 hs'
      simp only [Option.some_bind]
      intro h
      exact hih (Option.map_injective List.cons_injective h)

theorem packRecord_mtime (r : StatRec) (p : PackedRec)
    (h : packRecord r = some p) : roundF32 r.mtime = some p.mtime32 := by
  unfold packRecord at h
  simp only [Option.bind_eq_bind] at h
  cases h1 : roundF32 r.mtime <;> rw [h1] at h
  · simp at h
  · simp only [Option.some_bind] at h
    cases h2 : packI32 r.mode <;> rw [h2] at h
    · simp at h
    · simp only [Option.some_bind] at h
      cases h3 : packI32 r.size <;> rw [h3] at h
      · simp at h
      · simp only [Option.some_bind] at h
        cases h4 : packI32 r.uid <;> rw [h4] at h
        · simp at h
        · simp only [Option.some_bind] at h
          cases h5 : packI32 r.gid <;> rw [h5] at h
          · simp at h
          · simp only [Option.some_bind] at h
            cases h6 : roundF32 r.ctime <;> rw [h6] at h
            · simp at h
            · simp only [Option.some_bind, Option.pure_def,
                Option.some.injEq] at h
              rw [← h]

theorem packRecord_mtime_ne (r : StatRec) (t' : ℚ)
    (hs : (packRecord r).isSome)
    (hm : roundF32 r.mtime ≠ roundF32 t') :
    packRecord r ≠ packRecord { r with mtime := t' } := by
  obtain ⟨p, hp⟩ := Option.isSome_iff_exists.mp hs
  intro h
  have hq : packRecord { r with mtime := t' } = some p := h.symm.trans hp
  have h1 := packRecord_mtime r p hp
  have h2 : roundF32 t' = some p.mtime32 :=
    packRecord_mtime { r with mtime := t' } p hq
  exact hm (h1.trans h2.symm)

/-- Claim C5 as amended: changing the mtime of an in-scope file — a
top-level regular file or a regular non-symlink child of a top-level
directory — changes the digest exactly when the mtime's 32-bit float
conversion changes (provided the tree packs without error); mtime changes
below the binary32 resolution leave the digest unchanged, and changing an
excluded entry (lock file, reference marker, the var subdirectory, or the
digest file) never changes the digest. -/
theorem C5_digest_sensitivity :
    (∀ (es1 es2 : List TopEntry) (name : String) (r : StatRec) (t' : ℚ),
      ignoredName name = false →
      isDirMode r.mode = false →
      isRegMode r.mode = true → isLnkMode r.mode = false →
      roundF32 r.mtime ≠ roundF32 t' →
      (getRuntimeDigest (es1 ++ ⟨name, r, []⟩ :: es2)).isSome →
      getRuntimeDigest (es1 ++ ⟨name, r, []⟩ :: es2) ≠
        getRuntimeDigest (es1 ++ ⟨name, { r with mtime := t' }, []⟩ :: es2)) ∧
    (∀ (es1 es2 : List TopEntry) (name : String) (rdir : StatRec)
      (cs1 cs2 : List Child) (cname : String) (r : StatRec) (t' : ℚ),
      ignoredName name = false →
      isDirMode rdir.mode = true →
      roundF32 r.mtime ≠ roundF32 t' →
      (getRuntimeDigest (es1 ++
        ⟨name, rdir, cs1 ++ ⟨cname, true, false, r⟩ :: cs2⟩ :: es2)).isSome →
      getRuntimeDigest (es1 ++
        ⟨name, rdir, cs1 ++ ⟨cname, true, false, r⟩ :: cs2⟩ :: es2) ≠
        getRuntimeDigest (es1 ++ ⟨name, rdir,
          cs1 ++ ⟨cname, true, false, { r with mtime := t' }⟩ :: cs2⟩ ::
            es2)) ∧
    (∀ (es1 es2 : List TopEntry) (e e' : TopEntry),
      ignoredName e.name = true → ignoredName e'.name = true →
      getRuntimeDigest (es1 ++ e :: es2) =
        getRuntimeDigest (es1 ++ e' :: es2)) := by
  refine ⟨?_, ?_, ?_⟩
  · intro es1 es2 name r t' hign hdir hreg hlnk hm hsome
    have hmid : digestRecords [(⟨name, r, []⟩ : TopEntry)] = [r] := by
      simp [digestRecords, hign, hdir, hreg, hlnk]
    have hmid' :
        digestRecords [(⟨name, { r with mtime := t' }, []⟩ : TopEntry)] =
          [{ r with mtime := t' }] := by
      simp [digestRecords, hign, hdir, hreg, hlnk]
    have hrec : ∀ (mid : TopEntry), digestRecords (es1 ++ mid :: es2) =
        digestRecords es1 ++ digestRecords [mid] ++ digestRecords es2 := by
      intro mid
      rw [show es1 ++ mid :: es2 = es1 ++ [mid] ++ es2 by simp,
        digestRecords_append, digestRecords_append]
    unfold getRuntimeDigest at hsome ⊢
    rw [hrec, hmid] at hsome ⊢
    rw [hrec, hmid']
    simp only [List.append_assoc, List.singleton_append] at hsome ⊢
    have hps : (packRecord r).isSome :=
      packStream_isSome_of r (digestRecords es1) (digestRecords es2) hsome
    exact packStream_ne r { r with mtime := t' }
      (packRecord_mtime_ne r t' hps hm) (digestRecords es1)
      (digestRecords es2) hsome
  · intro es1 es2 name rdir cs1 cs2 cname r t' hign hdir hm hsome
    have hmid : ∀ (rr : StatRec),
        digestRecords [(⟨name, rdir,
          cs1 ++ ⟨cname, true, false, rr⟩ :: cs2⟩ : TopEntry)] =
        (cs1.filter (fun c => c.isFile ∧ ¬ c.isSymlink)).map Child.stat ++
          rr :: (cs2.filter (fun c => c.isFile ∧ ¬ c.isSymlink)).map
            Child.stat := by
      intro rr
      simp [digestRecords, hign, hdir, List.filter_append]
    have hrec : ∀ (mid : TopEntry), digestRecords (es1 ++ mid :: es2) =
        digestRecords es1 ++ digestRecords [mid] ++ digestRecords es2 := by
      intro mid
      rw [show es1 ++ mid :: es2 = es1 ++ [mid] ++ es2 by simp,
        digestRecords_append, digestRecords_append]
    unfold getRuntimeDigest at hsome ⊢
    rw [hrec, hmid] at hsome ⊢
    rw [hrec, hmid]
    simp only [List.append_assoc, List.cons_append] at hsome ⊢
    have key := packStream_ne r { r with mtime := t' }
      (packRecord_mtime_ne r t'
        (packStream_isSome_of r
          (digestRecords es1 ++
            (cs1.filter (fun c => c.isFile ∧ ¬ c.isSymlink)).map Child.stat)
          ((cs2.filter (fun c => c.isFile ∧ ¬ c.isSymlink)).map Child.stat ++
            digestRecords es2)
          (by simpa only [List.append_assoc, List.cons_append] using hsome))
        hm)
      (digestRecords es1 ++
        (cs1.filter (fun c => c.isFile ∧ ¬ c.isSymlink)).map Child.stat)
      ((cs2.filter (fun c => c.isFile ∧ ¬ c.isSymlink)).map Child.stat ++
        digestRecords es2)
      (by simpa only [List.append_assoc, List.cons_append] using hsome)
    simpa only [List.append_assoc, List.cons_append] using key
  · intro es1 es2 e e' hig hig'
    have hmid : digestRecords [e] = [] := by
      simp [digestRecords, hig]
    have hmid' : digestRecords [e'] = [] := by
      simp [digestRecords, hig']
    have hrec : ∀ (mid : TopEntry), digestRecords (es1 ++ mid :: es2) =
        digestRecords es1 ++ digestRecords [mid] ++ digestRecords es2 := by
      intro mid
      rw [show es1 ++ mid :: es2 = es1 ++ [mid] ++ es2 by simp,
        digestRecords_append, digestRecords_append]
    unfold getRuntimeDigest
    rw [hrec, hrec, hmid, hmid']

/-- Claim C4 as amended: the digest folds the per-file records in
directory-enumeration order, not a canonicalized order; two enumerations
of the same tree produce permutations of the same record multiset (and
identical enumerations produce identical digests), but the folded digest
itself depends on the enumeration order. -/
theorem C4_digest_order (es es' : List TopEntry) (h : es.Perm es') :
    (digestRecords es).Perm (digestRecords es') ∧
    (es = es' → getRuntimeDigest es = getRuntimeDigest es') :=
  ⟨(h.filter _).flatMap_right _, fun he => by rw [he]⟩

/-- Claim C4 is false as stated: the same two-file tree enumerated in the
two possible orders yields different digests, because get_runtime_digest
folds per-file hashes in glob (os.scandir) order without sorting. -/
theorem C4_counterexample :
    List.Perm [topA, topB] [topB, topA] ∧
    getRuntimeDigest [topA, topB] ≠ getRuntimeDigest [topB, topA] :=
  ⟨List.Perm.swap _ _ _, by decide⟩

/-- Witness for C4_digest_order at a concrete permutation. -/
theorem C4_digest_order_witness :
    (digestRecords [topA, topB]).Perm (digestRecords [topB, topA]) :=
  (C4_digest_order [topA, topB] [topB, topA] (List.Perm.swap _ _ _)).1

/-- Claim C5 is false as stated: touching an in-scope file's mtime from
2^24 to 2^24+1 seconds leaves the digest unchanged, because pack("f", t)
stores the mtime as a 32-bit float and both values round to the same
binary32 number (float32 resolution at that magnitude is 2 seconds). -/
theorem C5_counterexample :
    (16777216 : ℚ) ≠ 16777217 ∧
    getRuntimeDigest [topFile 16777216] =
      getRuntimeDigest [topFile 16777217] ∧
    (getRuntimeDigest [topFile 16777216]).isSome :=
  ⟨by norm_num, by decide, by decide⟩

/-- Witness for C5_digest_sensitivity: an mtime change that does alter the
binary32 value alters the digest. -/
theorem C5_digest_sensitivity_witness :
    getRuntimeDigest [topFile 16777216] ≠ getRuntimeDigest [topFile 1] :=
  C5_digest_sensitivity.1 [] [] "f" ⟨16777216, 33188, 10, 0, 0, 0⟩ 1
    (by decide) (by decide) (by decide) (by decide) (by decide) (by decide)

end Umu
